import Mathlib

/-!
# ORCA: verification of spec claims against a shallow embedding of the code

This file embeds, in Lean 4, the parts of the ORCA repository that the
frozen claims C1..C10 are about, and settles each claim against the
embedding.  Components covered:

* `Budget` — `crates/budget/src/lib.rs` (`Counters`, `Manager`).
* `PluginHost` — `crates/plugin_host/src/lib.rs` (`ManifestVerifier::verify`).
* `EventLog` — `crates/event-log/src/lib.rs` (`v2::to_jsonl_line`).
* `Policy` — `crates/policy/src/lib.rs` (`Engine::apply_rules_then_redact`).
* `BlobStore` — `crates/blob_store/src/lib.rs` (`put_reader`, `get_to_writer`).
* `Orchestrator` — `crates/orchestrator/src/lib.rs` (`submit_task`,
  `replay_on_start`).

Machine integers are modelled as `Nat` with explicit reduction modulo
`2 ^ 64` where Rust wrapping arithmetic matters.  Third-party primitives
that the code calls (AES-256-GCM, zstd, SHA-256, the file system) are not
code of this repository; they are modelled as explicit parameters together
with the contracts the code relies on (stated as named predicates and used
as hypotheses), so that every theorem remains executable on concrete
instantiations.
-/

set_option maxHeartbeats 1000000
set_option maxRecDepth 4096

/-- Decidable equality on `Except`, used to evaluate embedded fallible
operations on concrete inputs. -/
instance exceptDecEq {ε α : Type} [DecidableEq ε] [DecidableEq α] :
    DecidableEq (Except ε α)
  | Except.ok a, Except.ok b =>
    if h : a = b then Decidable.isTrue (by rw [h]) else Decidable.isFalse (by simp [h])
  | Except.ok _, Except.error _ => Decidable.isFalse (by simp)
  | Except.error _, Except.ok _ => Decidable.isFalse (by simp)
  | Except.error e, Except.error f =>
    if h : e = f then Decidable.isTrue (by rw [h]) else Decidable.isFalse (by simp [h])

namespace Budget

/-- Modulus of Rust `u64` arithmetic. -/
def U64_MOD : Nat := 2 ^ 64

/-- `budget::BudgetConfig`: optional per-run limits. -/
structure BudgetConfig where
  max_tokens : Option Nat
  max_cost_micros : Option Nat
deriving DecidableEq

/-- `budget::BudgetState`. -/
inductive BudgetState where
  | Within
  | Warning80
  | Warning90
  | Exceeded
deriving DecidableEq

/-- `budget::Counters`: the two `AtomicU64` counters, as values `< 2 ^ 64`. -/
structure Counters where
  tokens : Nat
  cost_micros : Nat
deriving DecidableEq

/-- `Counters::add_tokens`: `AtomicU64::fetch_add`, which wraps modulo `2 ^ 64`. -/
def Counters.add_tokens (c : Counters) (n : Nat) : Counters :=
  { c with tokens := (c.tokens + n) % U64_MOD }

/-- `Counters::add_cost_micros`: `AtomicU64::fetch_add`, wrapping modulo `2 ^ 64`. -/
def Counters.add_cost_micros (c : Counters) (n : Nat) : Counters :=
  { c with cost_micros := (c.cost_micros + n) % U64_MOD }

/-- `budget::Manager`: configuration plus counters. -/
structure Manager where
  cfg : BudgetConfig
  counters : Counters
deriving DecidableEq

/-- `Manager::add_usage`: adds each component only when the increment is
positive (the underlying adds wrap modulo `2 ^ 64`). -/
def Manager.add_usage (m : Manager) (tokens cost_micros : Nat) : Manager :=
  let m := if tokens > 0 then { m with counters := m.counters.add_tokens tokens } else m
  if cost_micros > 0 then { m with counters := m.counters.add_cost_micros cost_micros } else m

/-- Severity rank of a budget state (`Within` lowest). -/
def BudgetState.rank : BudgetState → Nat
  | BudgetState.Within => 0
  | BudgetState.Warning80 => 1
  | BudgetState.Warning90 => 2
  | BudgetState.Exceeded => 3

/-- Threshold classification of one counter/limit ratio, in exact integer
arithmetic: ratio `> 1` is `Exceeded`, `≥ 0.90` is `Warning90`, `≥ 0.80`
is `Warning80`; a missing or zero limit contributes ratio 0. -/
def ratioState (v : Nat) (m : Option Nat) : BudgetState :=
  match m with
  | none => BudgetState.Within
  | some mx =>
    if mx = 0 then BudgetState.Within
    else if v > mx then BudgetState.Exceeded
    else if 10 * v ≥ 9 * mx then BudgetState.Warning90
    else if 10 * v ≥ 8 * mx then BudgetState.Warning80
    else BudgetState.Within

/-- `Manager::status`, idealised to exact arithmetic: the pure real-ratio
classification the specification describes.  Since the classification is
monotone in the ratio, classifying the maximum of the two ratios equals
taking the more restrictive of the two per-ratio classes, which is what
is computed here in exact integer arithmetic.  The source computes the
ratios in `f64`; that rounding is modelled bit-exactly by
`Manager.statusF64` further down, and the two classifications diverge
where the rounding bites (the subject of claim C5). -/
def Manager.status (m : Manager) : BudgetState :=
  let ts := ratioState m.counters.tokens m.cfg.max_tokens
  let cs := ratioState m.counters.cost_micros m.cfg.max_cost_micros
  if cs.rank ≤ ts.rank then ts else cs

end Budget


/-- UTF-8 byte length of one character (Rust `str::len` counts bytes). -/
def utf8Len (c : Char) : Nat :=
  if c.toNat < 128 then 1
  else if c.toNat < 2048 then 2
  else if c.toNat < 65536 then 3
  else 4

/-- UTF-8 byte length of a character list. -/
def strBytes (cs : List Char) : Nat :=
  (cs.map utf8Len).sum

/-- Rust `str::trim` on a character list (whitespace stripped from both
ends). -/
def trimChars (cs : List Char) : List Char :=
  ((cs.dropWhile Char.isWhitespace).reverse.dropWhile Char.isWhitespace).reverse

/-- Lowercase an ASCII letter, as Rust `to_ascii_lowercase` does per char. -/
def asciiLower (c : Char) : Char :=
  if 'A' ≤ c ∧ c ≤ 'Z' then Char.ofNat (c.toNat + 32) else c

/-- Rust `char::is_ascii_hexdigit`. -/
def isAsciiHexDigit (c : Char) : Bool :=
  c.isDigit || ('a' ≤ c && c ≤ 'f') || ('A' ≤ c && c ≤ 'F')

/-- Value of one hex digit. -/
def hexVal (c : Char) : Option Nat :=
  if c.isDigit then some (c.toNat - '0'.toNat)
  else if 'a' ≤ c ∧ c ≤ 'f' then some (c.toNat - 'a'.toNat + 10)
  else if 'A' ≤ c ∧ c ≤ 'F' then some (c.toNat - 'A'.toNat + 10)
  else none

/-- `hex::decode` on a character list: consumes pairs of hex digits. -/
def hexDecodeList : List Char → Option (List Nat)
  | [] => some []
  | [_] => none
  | c₁ :: c₂ :: rest => do
    let h ← hexVal c₁
    let l ← hexVal c₂
    let tail ← hexDecodeList rest
    pure ((h * 16 + l) :: tail)

namespace PluginHost

/-- `plugin_host::VerificationError`. -/
inductive VerificationError where
  | MissingSignature
  | MissingSbom
  | InvalidDigestFormat
  | DigestMismatch
  | OversizedSignature
  | InvalidSignature
  | Other (msg : String)
deriving DecidableEq

/-- `plugin_host::PluginManifest`. -/
structure PluginManifest where
  name : String
  version : String
  wasm_digest : String
  signature : Option String
  sbom_ref : Option String

/-- Signature size cap (`MAX_SIG_LEN`, 16 KiB). -/
def MAX_SIG_LEN : Nat := 16 * 1024

/-- `normalize_and_validate_digest`: trim, ASCII-lowercase, require exactly
64 hex characters, and hex-decode to 32 bytes. -/
def normalize_and_validate_digest (s : String) :
    Except VerificationError (List Nat) :=
  let norm : List Char := (trimChars s.data).map asciiLower
  if strBytes norm ≠ 64 ∨ ¬ norm.all isAsciiHexDigit then
    Except.error VerificationError.InvalidDigestFormat
  else
    match hexDecodeList norm with
    | none => Except.error VerificationError.InvalidDigestFormat
    | some bytes =>
      if bytes.length ≠ 32 then Except.error VerificationError.InvalidDigestFormat
      else Except.ok bytes

/-- `validate_signature_size` threshold check on the trimmed signature. -/
def signatureOversized (s : List Char) : Bool :=
  strBytes s > MAX_SIG_LEN

/-- Standard-alphabet base64 character. -/
def isBase64Char (c : Char) : Bool :=
  c.isAlphanum || c = '+' || c = '/'

/-- Acceptance check of the base64 `STANDARD` engine used by the verifier:
padded length a multiple of 4, at most two trailing `=` pads, and only
alphabet characters in the body. -/
def isBase64Std (cs : List Char) : Bool :=
  let n := cs.length
  let pad := (cs.reverse.takeWhile (· = '=')).length
  n % 4 == 0 && pad ≤ 2 && (cs.take (n - pad)).all isBase64Char

/-- `plugin_host::ManifestVerifier`. -/
structure ManifestVerifier where
  require_signed_plugins : Bool

/-- `ManifestVerifier::verify`, parametrised by the SHA-256 function it
calls on the WASM bytes.  Mirrors the source order: signature/SBOM policy
gates, digest format validation, digest comparison, then signature checks
(the Sigstore path is not integrated and fails closed with
`InvalidSignature`). -/
def ManifestVerifier.verify (sha256 : List Nat → List Nat) (v : ManifestVerifier)
    (manifest : PluginManifest) (wasm : List Nat) : Except VerificationError Unit :=
  if v.require_signed_plugins ∧ manifest.signature = none then
    Except.error VerificationError.MissingSignature
  else if v.require_signed_plugins ∧ manifest.sbom_ref = none then
    Except.error VerificationError.MissingSbom
  else
    match normalize_and_validate_digest manifest.wasm_digest with
    | Except.error e => Except.error e
    | Except.ok expected =>
      let actual := sha256 wasm
      if actual ≠ expected then Except.error VerificationError.DigestMismatch
      else
        match manifest.signature with
        | some sig =>
          let s := trimChars sig.data
          if signatureOversized s then Except.error VerificationError.OversizedSignature
          else if ¬ isBase64Std s then Except.error VerificationError.InvalidSignature
          else Except.error VerificationError.InvalidSignature
        | none => Except.ok ()

end PluginHost


/-! ## JSON values

Minimal model of `serde_json::Value` and its compact serialization.
Arrays and objects use bespoke list types so that every recursion is
structural and kernel-reducible.  `serde_json::Value` keeps object keys in
sorted (`BTreeMap`) order; object literals in this file are written in the
order `serde_json` would produce wherever serialization order matters. -/

mutual
inductive Json where
  | null
  | bool (b : Bool)
  | num (n : Int)
  | str (s : String)
  | arr (elems : JsonArr)
  | obj (fields : JsonObj)
inductive JsonArr where
  | nil
  | cons (hd : Json) (tl : JsonArr)
inductive JsonObj where
  | nil
  | cons (key : String) (val : Json) (tl : JsonObj)
end

deriving instance DecidableEq for Json

/-- Build a `JsonArr` from a list. -/
def Json.arrOf (l : List Json) : Json :=
  Json.arr (l.foldr JsonArr.cons JsonArr.nil)

/-- Build a `JsonObj` from an association list. -/
def JsonObj.ofList (l : List (String × Json)) : JsonObj :=
  l.foldr (fun kv tl => JsonObj.cons kv.1 kv.2 tl) JsonObj.nil

/-- Build an object value from an association list. -/
def Json.objOf (l : List (String × Json)) : Json :=
  Json.obj (JsonObj.ofList l)

/-- First binding of a key in an object's field list. -/
def JsonObj.lookupKey : JsonObj → String → Option Json
  | JsonObj.nil, _ => none
  | JsonObj.cons k v tl, key => if k = key then some v else tl.lookupKey key

/-- `serde_json::Value::get(key)`: a lookup on objects, `None` otherwise. -/
def Json.get (j : Json) (key : String) : Option Json :=
  match j with
  | Json.obj fs => fs.lookupKey key
  | _ => none

/-- `Value::as_str`. -/
def Json.asStr : Json → Option String
  | Json.str s => some s
  | _ => none

/-- `Value::is_object`. -/
def Json.isObj : Json → Bool
  | Json.obj _ => true
  | _ => false

/-- Replace the first binding of a key when present (the effect of writing
through `Value::get_mut(key)`); no change when the key is absent. -/
def JsonObj.setKey : JsonObj → String → Json → JsonObj
  | JsonObj.nil, _, _ => JsonObj.nil
  | JsonObj.cons k v tl, key, nv =>
    if k = key then JsonObj.cons k nv tl else JsonObj.cons k v (tl.setKey key nv)

/-- Replace a key's value inside an object value; other values unchanged. -/
def Json.setKey (j : Json) (key : String) (nv : Json) : Json :=
  match j with
  | Json.obj fs => Json.obj (fs.setKey key nv)
  | other => other

/-- Lowercase hex digit for `\u00XX` escapes. -/
def hexDigitChar (n : Nat) : Char :=
  if n < 10 then Char.ofNat ('0'.toNat + n) else Char.ofNat ('a'.toNat + n - 10)

/-- `serde_json` escaping of one character inside a JSON string. -/
def escapeChar (c : Char) : List Char :=
  if c = '"' then ['\\', '"']
  else if c = '\\' then ['\\', '\\']
  else if c.toNat = 8 then ['\\', 'b']
  else if c.toNat = 9 then ['\\', 't']
  else if c.toNat = 10 then ['\\', 'n']
  else if c.toNat = 12 then ['\\', 'f']
  else if c.toNat = 13 then ['\\', 'r']
  else if c.toNat < 32 then
    ['\\', 'u', '0', '0', hexDigitChar (c.toNat / 16), hexDigitChar (c.toNat % 16)]
  else [c]

/-- Serialized JSON string: quotes around the escaped content. -/
def serializeString (s : String) : List Char :=
  '"' :: (s.data.map escapeChar).flatten ++ ['"']

/-- Decimal digits of an integer. -/
def intChars (n : Int) : List Char :=
  if n < 0 then '-' :: Nat.toDigits 10 n.natAbs else Nat.toDigits 10 n.natAbs

mutual
/-- Compact `serde_json::to_string` of a JSON value. -/
def serializeJson : Json → List Char
  | Json.null => 'n' :: 'u' :: 'l' :: 'l' :: []
  | Json.bool true => 't' :: 'r' :: 'u' :: 'e' :: []
  | Json.bool false => 'f' :: 'a' :: 'l' :: 's' :: 'e' :: []
  | Json.num n => intChars n
  | Json.str s => serializeString s
  | Json.arr xs => '[' :: serializeArrItems xs ++ [']']
  | Json.obj fs => Char.ofNat 123 :: serializeObjItems fs ++ [Char.ofNat 125]
/-- Comma-separated serialization of array elements. -/
def serializeArrItems : JsonArr → List Char
  | JsonArr.nil => []
  | JsonArr.cons x JsonArr.nil => serializeJson x
  | JsonArr.cons x tl => serializeJson x ++ ',' :: serializeArrItems tl
/-- Comma-separated serialization of object fields. -/
def serializeObjItems : JsonObj → List Char
  | JsonObj.nil => []
  | JsonObj.cons k v JsonObj.nil => serializeString k ++ ':' :: serializeJson v
  | JsonObj.cons k v tl => serializeString k ++ ':' :: serializeJson v ++ ',' :: serializeObjItems tl
end

/-- JSON whitespace accepted between tokens. -/
def jsonWs (c : Char) : Bool :=
  c = ' ' || c = '\t' || c = '\n' || c = '\r'

/-- Skip JSON whitespace. -/
def skipWs (cs : List Char) : List Char :=
  cs.dropWhile jsonWs

/-- Unescape a single-character JSON escape. -/
def unescapeChar (c : Char) : Option Char :=
  if c = '"' then some '"'
  else if c = '\\' then some '\\'
  else if c = '/' then some '/'
  else if c = 'b' then some (Char.ofNat 8)
  else if c = 'f' then some (Char.ofNat 12)
  else if c = 'n' then some '\n'
  else if c = 'r' then some (Char.ofNat 13)
  else if c = 't' then some '\t'
  else none

/-- Leading decimal digits and the remaining input. -/
def takeDigits (cs : List Char) : List Char × List Char :=
  (cs.takeWhile Char.isDigit, cs.dropWhile Char.isDigit)

/-- Numeric value of a digit list (most significant first). -/
def digitsVal (ds : List Char) : Nat :=
  ds.foldl (fun acc c => acc * 10 + (c.toNat - '0'.toNat)) 0

mutual
/-- Fuel-bounded recursive-descent JSON parse of one value, mirroring
`serde_json::from_str` on the subset used by the policy engine (objects,
arrays, strings, integers, literals; floats and surrogate pairs are not
modelled). -/
def parseValue : Nat → List Char → Option (Json × List Char)
  | 0, _ => none
  | fuel + 1, cs0 =>
    let cs := skipWs cs0
    match cs with
    | [] => none
    | c :: t =>
      if c = 'n' then
        if ('u' :: 'l' :: 'l' :: []).isPrefixOf t then some (Json.null, t.drop 3) else none
      else if c = 't' then
        if ('r' :: 'u' :: 'e' :: []).isPrefixOf t then some (Json.bool true, t.drop 3) else none
      else if c = 'f' then
        if ('a' :: 'l' :: 's' :: 'e' :: []).isPrefixOf t then some (Json.bool false, t.drop 4)
        else none
      else if c = '"' then
        match parseStringBody fuel t with
        | some (content, rest) => some (Json.str ⟨content⟩, rest)
        | none => none
      else if c = '[' then
        match skipWs t with
        | ']' :: rest => some (Json.arr JsonArr.nil, rest)
        | t' => match parseArrItems fuel t' with
          | some (items, rest) => some (Json.arr items, rest)
          | none => none
      else if c = Char.ofNat 123 then
        match skipWs t with
        | d :: rest =>
          if d = Char.ofNat 125 then some (Json.obj JsonObj.nil, rest)
          else match parseObjItems fuel (d :: rest) with
            | some (fields, rest') => some (Json.obj fields, rest')
            | none => none
        | [] => none
      else if c = '-' then
        match takeDigits t with
        | ([], _) => none
        | (ds, rest) => some (Json.num (-(digitsVal ds : Int)), rest)
      else if c.isDigit then
        match takeDigits (c :: t) with
        | (ds, rest) => some (Json.num (digitsVal ds : Int), rest)
      else none
/-- Fuel-bounded parse of a JSON string body after the opening quote. -/
def parseStringBody : Nat → List Char → Option (List Char × List Char)
  | 0, _ => none
  | fuel + 1, cs =>
    match cs with
    | [] => none
    | c :: t =>
      if c = '"' then some ([], t)
      else if c = '\\' then
        match t with
        | [] => none
        | e :: t2 =>
          if e = 'u' then
            match t2 with
            | h1 :: h2 :: h3 :: h4 :: t3 =>
              match hexVal h1, hexVal h2, hexVal h3, hexVal h4 with
              | some v1, some v2, some v3, some v4 =>
                match parseStringBody fuel t3 with
                | some (s, r) =>
                  some (Char.ofNat (((v1 * 16 + v2) * 16 + v3) * 16 + v4) :: s, r)
                | none => none
              | _, _, _, _ => none
            | _ => none
          else
            match unescapeChar e with
            | some c' =>
              match parseStringBody fuel t2 with
              | some (s, r) => some (c' :: s, r)
              | none => none
            | none => none
      else
        match parseStringBody fuel t with
        | some (s, r) => some (c :: s, r)
        | none => none
/-- Fuel-bounded parse of comma-separated array items up to `]`. -/
def parseArrItems : Nat → List Char → Option (JsonArr × List Char)
  | 0, _ => none
  | fuel + 1, cs => do
    let (v, r) ← parseValue fuel cs
    match skipWs r with
    | ',' :: r2 =>
      match parseArrItems fuel r2 with
      | some (tl, r3) => some (JsonArr.cons v tl, r3)
      | none => none
    | ']' :: r2 => some (JsonArr.cons v JsonArr.nil, r2)
    | _ => none
/-- Fuel-bounded parse of comma-separated object fields up to the closing
brace. -/
def parseObjItems : Nat → List Char → Option (JsonObj × List Char)
  | 0, _ => none
  | fuel + 1, cs =>
    match skipWs cs with
    | '"' :: t => do
      let (k, r) ← parseStringBody fuel t
      match skipWs r with
      | ':' :: r2 => do
        let (v, r3) ← parseValue fuel r2
        match skipWs r3 with
        | ',' :: r4 =>
          match parseObjItems fuel r4 with
          | some (tl, r5) => some (JsonObj.cons ⟨k⟩ v tl, r5)
          | none => none
        | d :: r4 => if d = Char.ofNat 125 then some (JsonObj.cons ⟨k⟩ v JsonObj.nil, r4) else none
        | [] => none
      | _ => none
    | _ => none
end

/-- `serde_json::from_str`: parse a complete value, requiring only
whitespace after it. -/
def parseJson (s : String) : Option Json :=
  match parseValue (s.data.length + 1) s.data with
  | some (v, rest) => if (skipWs rest).isEmpty then some v else none
  | none => none

namespace EventLog

/-- `event_log::v2::Attachment`. -/
structure Attachment where
  digest_sha256 : String
  size_bytes : Nat
  mime : String
  encoding : Option String
  compression : String
deriving DecidableEq

/-- `event_log::v2::EventTypeV2`. -/
inductive EventTypeV2 where
  | StartRun
  | TaskEnqueued
  | UsageUpdate
  | ExternalIoStarted
  | ExternalIoFinished
deriving DecidableEq

/-- `snake_case` serialization of `EventTypeV2`. -/
def EventTypeV2.toStr : EventTypeV2 → String
  | EventTypeV2.StartRun => "start_run"
  | EventTypeV2.TaskEnqueued => "task_enqueued"
  | EventTypeV2.UsageUpdate => "usage_update"
  | EventTypeV2.ExternalIoStarted => "external_io_started"
  | EventTypeV2.ExternalIoFinished => "external_io_finished"

/-- `event_log::v2::RecordV2` with the payload and metadata as JSON
values. -/
structure RecordV2 where
  id : Nat
  ts_ms : Nat
  version : Nat
  event_type : EventTypeV2
  run_id : String
  trace_id : String
  payload : Json
  attachments : Option (List Attachment)
  metadata : Json

/-- Bound `ATTACH_MAX_COUNT`. -/
def ATTACH_MAX_COUNT : Nat := 8

/-- Bound `STR_MAX_LEN` (bytes). -/
def STR_MAX_LEN : Nat := 128

/-- Bound `TOTAL_ATTACH_JSON_MAX` (bytes). -/
def TOTAL_ATTACH_JSON_MAX : Nat := 8 * 1024

/-- `v2::is_hex_sha256`: exactly 64 bytes, all ASCII hex digits
(upper- or lowercase, per `is_ascii_hexdigit`). -/
def is_hex_sha256 (s : String) : Bool :=
  strBytes s.data == 64 && s.data.all isAsciiHexDigit

/-- One attachment's `serde` image, fields in declaration order; `encoding`
is skipped when `None` (`skip_serializing_if`). -/
def Attachment.toJson (a : Attachment) : Json :=
  Json.objOf
    ([("digest_sha256", Json.str a.digest_sha256), ("size_bytes", Json.num a.size_bytes),
      ("mime", Json.str a.mime)] ++
      (match a.encoding with
       | some e => [("encoding", Json.str e)]
       | none => []) ++
      [("compression", Json.str a.compression)])

/-- String-size violation of one attachment: `mime`, `encoding`, or
`compression` over `STR_MAX_LEN` bytes. -/
def hasOversizedField (x : Attachment) : Bool :=
  decide (strBytes x.mime.data > STR_MAX_LEN) ||
    decide ((match x.encoding with
             | some e => strBytes e.data
             | none => 0) > STR_MAX_LEN) ||
    decide (strBytes x.compression.data > STR_MAX_LEN)

/-- Validation loop body of `to_jsonl_line`: the first error among the
digest and string-size checks for one attachment. -/
def checkAtt (x : Attachment) : Option String :=
  if ¬ is_hex_sha256 x.digest_sha256 then some "invalid digest"
  else if hasOversizedField x then some "oversized attachment string field"
  else none

/-- First validation error over a list of attachments. -/
def checkAtts : List Attachment → Option String
  | [] => none
  | x :: rest =>
    match checkAtt x with
    | some e => some e
    | none => checkAtts rest

/-- Ascending-by-digest comparison used by `Attachment`'s `Ord`. -/
def attLe (a b : Attachment) : Prop :=
  a.digest_sha256 ≤ b.digest_sha256

instance : DecidableRel attLe := fun a b =>
  inferInstanceAs (Decidable (a.digest_sha256 ≤ b.digest_sha256))

/-- Stable insertion into a digest-sorted list (equal digests keep their
original relative order, as Rust's stable `sort` does). -/
def insertByDigest (a : Attachment) : List Attachment → List Attachment
  | [] => [a]
  | b :: rest =>
    if a.digest_sha256 < b.digest_sha256 then a :: b :: rest
    else b :: insertByDigest a rest

/-- `Vec::sort` by the `Ord` on `Attachment` (compares digests; stable). -/
def sortAtts : List Attachment → List Attachment
  | [] => []
  | a :: rest => insertByDigest a (sortAtts rest)

/-- Serialized attachments array (`serde_json::to_string(&a)`). -/
def serializeAtts (l : List Attachment) : List Char :=
  serializeJson (Json.arrOf (l.map Attachment.toJson))

/-- Serialization of the full record through the `RecordV2Ser` wrapper:
fields in declaration order, `attachments` (when given) between `payload`
and `metadata`. -/
def serializeRecordWith (rec : RecordV2) (atts : Option (List Attachment)) : String :=
  ⟨Char.ofNat 123 ::
    (serializeString "id" ++ ':' :: intChars rec.id ++ ',' ::
     serializeString "ts_ms" ++ ':' :: intChars rec.ts_ms ++ ',' ::
     serializeString "version" ++ ':' :: intChars rec.version ++ ',' ::
     serializeString "event_type" ++ ':' :: serializeString rec.event_type.toStr ++ ',' ::
     serializeString "run_id" ++ ':' :: serializeString rec.run_id ++ ',' ::
     serializeString "trace_id" ++ ':' :: serializeString rec.trace_id ++ ',' ::
     serializeString "payload" ++ ':' :: serializeJson rec.payload ++ ',' ::
     (match atts with
      | some a => serializeString "attachments" ++ ':' :: serializeAtts a ++ [',']
      | none => []) ++
     serializeString "metadata" ++ ':' :: serializeJson rec.metadata) ++
    [Char.ofNat 125]⟩

/-- `event_log::v2::to_jsonl_line`: validate and sort attachments, bound
their serialized size, then emit the record with stable field order. -/
def to_jsonl_line (rec : RecordV2) : Except String String :=
  match rec.attachments with
  | none => Except.ok (serializeRecordWith rec none)
  | some att =>
    if att.length > ATTACH_MAX_COUNT then
      Except.error "attachments count exceeds max"
    else
      match checkAtts att with
      | some e => Except.error e
      | none =>
        let a := sortAtts att
        if strBytes (serializeAtts a) > TOTAL_ATTACH_JSON_MAX then
          Except.error "attachments too large"
        else Except.ok (serializeRecordWith rec (some a))

/-- Spec-side predicate: 64 lowercase hex characters (the data-model wording
for `digest_sha256`). -/
def isLowerHexSha256 (s : String) : Bool :=
  strBytes s.data == 64 && s.data.all (fun c => c.isDigit || ('a' ≤ c && c ≤ 'f'))

/-- Error observation on the serializer result. -/
def isErrLine : Except String String → Bool
  | Except.error _ => true
  | Except.ok _ => false

end EventLog

namespace Policy

/-- `policy::DecisionKind`. -/
inductive DecisionKind where
  | Allow
  | Deny
  | Modify
deriving DecidableEq

/-- `policy::Decision`. -/
structure Decision where
  kind : DecisionKind
  payload : Option Json
  reason : Option String
  rule_name : Option String
  action : Option String
deriving DecidableEq

/-- `policy::Rule` as compiled from YAML. -/
structure Rule where
  name : String
  when : String
  action : String
  message : Option String
  level : Option String
  transform : Option String
  priority : Int
deriving DecidableEq

/-- `policy::Engine` state (the built-in PII pattern is fixed). -/
structure Engine where
  rules : List Rule
  tool_allowlist : Option (List String)
  policy_loaded : Bool

/-- Substring search over the tail positions of the haystack. -/
def containsSub (pat : String) : List Char → Bool
  | [] => pat.data.isEmpty
  | c :: t => pat.data.isPrefixOf (c :: t) || containsSub pat t

/-- Rust `str::contains` for string patterns. -/
def strContains (hay pat : String) : Bool :=
  containsSub pat hay.data

/-- Regex word character (ASCII subset relevant to the inputs here). -/
def isWordChar (c : Char) : Bool :=
  c.isAlphanum || c = '_'

/-- Match of the SSN pattern `\d3-\d2-\d4` at the head of the input,
including the trailing word boundary; returns the rest on success. -/
def ssnMatch : List Char → Option (List Char)
  | d1 :: d2 :: d3 :: h1 :: d4 :: d5 :: h2 :: d6 :: d7 :: d8 :: d9 :: rest =>
    if d1.isDigit && d2.isDigit && d3.isDigit && h1 == '-' && d4.isDigit && d5.isDigit &&
        h2 == '-' && d6.isDigit && d7.isDigit && d8.isDigit && d9.isDigit &&
        (match rest with
         | [] => true
         | r :: _ => ! isWordChar r) then
      some rest
    else none
  | _ => none

/-- Replacement text of the built-in redaction. -/
def redactedChars : List Char :=
  '[' :: 'R' :: 'E' :: 'D' :: 'A' :: 'C' :: 'T' :: 'E' :: 'D' :: ']' :: []

/-- Fuel-bounded scan implementing `Regex::replace_all` for the SSN
pattern: leftmost non-overlapping matches, each preceded by a word
boundary (tracked by `prevWord`). -/
def piiScanF : Nat → Bool → List Char → List Char
  | 0, _, cs => cs
  | fuel + 1, prevWord, cs =>
    match cs with
    | [] => []
    | c :: t =>
      if prevWord = false then
        match ssnMatch (c :: t) with
        | some rest => redactedChars ++ piiScanF fuel true rest
        | none => c :: piiScanF fuel (isWordChar c) t
      else c :: piiScanF fuel (isWordChar c) t

/-- `replace_all` of the built-in SSN pattern with `[REDACTED]`. -/
def piiReplaceAll (s : String) : String :=
  ⟨piiScanF s.data.length false s.data⟩

/-- The empty Allow decision. -/
def allowEmptyDecision : Decision :=
  ⟨DecisionKind.Allow, none, none, none, none⟩

/-- The fail-closed Deny decision returned when no policy is loaded. -/
def failClosedDecision : Decision :=
  ⟨DecisionKind.Deny, none, some "no valid policy loaded", some "fail_closed_default",
    some "deny"⟩

/-- `Engine::scan_and_redact`: redact SSN patterns inside the envelope's
`payload_json` string; `Modify` when anything changed, empty Allow
otherwise. -/
def Engine.scan_and_redact (_eng : Engine) (envelope : Json) (rule_name : Option String) :
    Decision :=
  match (envelope.get "payload_json").bind Json.asStr with
  | some payload =>
    let redacted := piiReplaceAll payload
    if redacted ≠ payload then
      { kind := DecisionKind.Modify,
        payload := some (envelope.setKey "payload_json" (Json.str redacted)),
        reason := some "PII redacted",
        rule_name := some (rule_name.getD "builtin_redact_pii"),
        action := some "modify" }
    else allowEmptyDecision
  | none => allowEmptyDecision

/-- ASCII lowering of a string (`str::to_lowercase` on the inputs used
here). -/
def lowerStr (s : String) : String :=
  ⟨s.data.map asciiLower⟩

/-- `Engine::check_tool_allowlist`: parse the payload, look for a
`tool`/`tool_name` key, and deny when an allowlist excludes it or, absent
an allowlist, when any `deny` + `ToolInvocation` rule exists. -/
def Engine.check_tool_allowlist (eng : Engine) (envelope : Json) : Option Decision :=
  match (envelope.get "payload_json").bind Json.asStr with
  | none => none
  | some payload_str =>
    let payload_val := (parseJson payload_str).getD Json.null
    match ((payload_val.get "tool").bind Json.asStr).orElse
        (fun _ => (payload_val.get "tool_name").bind Json.asStr) with
    | none => none
    | some tn0 =>
      let tn := lowerStr tn0
      match eng.tool_allowlist with
      | some allow =>
        if ¬ allow.contains tn then
          some ⟨DecisionKind.Deny, none, some ("tool '" ++ tn ++ "' not allowed"),
            some "tool_allowlist", some "deny"⟩
        else none
      | none =>
        if eng.rules.any (fun r => r.action == "deny" && strContains r.when "ToolInvocation") then
          some ⟨DecisionKind.Deny, none,
            some ("external tool '" ++ tn ++ "' blocked by default"),
            some "Default-Deny-All-External-Tools", some "deny"⟩
        else none

/-- The decision contributed by one rule when its `(action, when)` pair
matches the interpreter's patterns; `none` when the rule does not match. -/
def Engine.ruleDecision (eng : Engine) (envelope : Json) (r : Rule) : Option Decision :=
  if r.action = "deny" ∧ strContains r.when "ToolInvocation" then
    some ⟨DecisionKind.Deny, none, r.message, some r.name, some r.action⟩
  else if r.action = "allow_but_flag" ∧ strContains r.when "LLMPrompt" then
    some ⟨DecisionKind.Allow, none, r.message, some r.name, some r.action⟩
  else if r.action = "modify" ∧ strContains r.when "pii_detect" then
    let d2 := eng.scan_and_redact envelope (some r.name)
    some { d2 with
      reason := if d2.reason = none then r.message else d2.reason,
      action := some r.action }
  else none

/-- The interpreter's `matches` vector: `(priority, file index, decision)`
for every matching rule, in file order. -/
def Engine.matchedDecisions (eng : Engine) (envelope : Json) :
    List (Int × Nat × Decision) :=
  eng.rules.enum.filterMap fun p =>
    (eng.ruleDecision envelope p.2).map fun d => (p.2.priority, p.1, d)

/-- Restrictiveness ranking: Deny (3) > Modify (2) > Allow (1). -/
def sevOf : DecisionKind → Nat
  | DecisionKind.Deny => 3
  | DecisionKind.Modify => 2
  | DecisionKind.Allow => 1

/-- `Iterator::max` over the priorities. -/
def maxIntOf : List Int → Option Int
  | [] => none
  | x :: xs => some (xs.foldl max x)

/-- Fold step of the best-match loop: strictly more restrictive replaces;
ties keep the earlier match. -/
def pickBetter (best : Option (Int × Nat × Decision)) (m : Int × Nat × Decision) :
    Option (Int × Nat × Decision) :=
  match best with
  | none => some m
  | some b => if sevOf m.2.2.kind > sevOf b.2.2.kind then some m else best

/-- `Engine::apply_rules_then_redact`: built-in PII redaction, fail-closed
check, tool allowlist, then the rule interpreter with
priority → restrictiveness → file-order precedence. -/
def Engine.apply_rules_then_redact (eng : Engine) (envelope : Json) : Decision :=
  let d := eng.scan_and_redact envelope (some "builtin_redact_pii")
  if d.kind = DecisionKind.Modify then d
  else if ¬ eng.policy_loaded then failClosedDecision
  else
    match eng.check_tool_allowlist envelope with
    | some dec => dec
    | none =>
      let ms := eng.matchedDecisions envelope
      if ms.isEmpty then allowEmptyDecision
      else
        let max_pri := (maxIntOf (ms.map fun m => m.1)).getD 0
        match (ms.filter fun m => m.1 = max_pri).foldl pickBetter none with
        | some b => b.2.2
        | none => allowEmptyDecision

/-- `Engine::pre_submit_task` (observer and metrics hooks do not affect
the decision). -/
def Engine.pre_submit_task (eng : Engine) (envelope : Json) : Decision :=
  eng.apply_rules_then_redact envelope

/-- `Engine::post_submit_task`: the current baseline always allows. -/
def Engine.post_submit_task (_eng : Engine) (_result : Json) : Decision :=
  allowEmptyDecision

/-- Spec-side ranking of a match: its priority paired with the
restrictiveness of its decision kind. -/
def prioSev (m : Int × Nat × Decision) : Int × Nat :=
  (m.1, sevOf m.2.2.kind)

/-- Lexicographic comparison of `(priority, restrictiveness)` ranks. -/
def lexLE (a b : Int × Nat) : Prop :=
  a.1 < b.1 ∨ (a.1 = b.1 ∧ a.2 ≤ b.2)

end Policy

namespace BlobStore

/-- Streaming format chunk size (64 KiB of compressed plaintext). -/
def CHUNK_SIZE : Nat := 64 * 1024

/-- `FILE_MAGIC`: the bytes of `BS2\0`. -/
def FILE_MAGIC : List Nat := [66, 83, 50, 0]

/-- `FILE_VERSION`. -/
def FILE_VERSION : Nat := 1

/-- AES-GCM authentication tag size. -/
def AEAD_TAG_SIZE : Nat := 16

/-- `blob_store::Error`. -/
inductive Error where
  | Io
  | Crypto (msg : String)
  | Integrity
  | NotFound
  | PartialWriteDetected
  | WrongKey
deriving DecidableEq

/-- Third-party primitives the blob store calls (SHA-256, zstd,
AES-256-GCM), modelled as explicit functions on byte lists.  `encrypt` and
`decrypt` take the key and the 12-byte nonce. -/
structure Prims where
  sha256 : List Nat → List Nat
  compress : List Nat → List Nat
  decompress : List Nat → Option (List Nat)
  encrypt : List Nat → List Nat → List Nat → List Nat
  decrypt : List Nat → List Nat → List Nat → Option (List Nat)

/-- AEAD contract: decryption inverts encryption under the same key and
nonce. -/
def AeadRoundTrip (p : Prims) : Prop :=
  ∀ k n pt, p.decrypt k n (p.encrypt k n pt) = some pt

/-- AEAD contract: a ciphertext is the plaintext length plus the 16-byte
tag. -/
def AeadTagLen (p : Prims) : Prop :=
  ∀ k n pt, (p.encrypt k n pt).length = pt.length + AEAD_TAG_SIZE

/-- zstd contract: decompression inverts compression. -/
def ZstdRoundTrip (p : Prims) : Prop :=
  ∀ b, p.decompress (p.compress b) = some b

/-- zstd contract: every frame is non-empty (a frame starts with a 4-byte
magic number, even for empty input). -/
def ZstdFrameNonEmpty (p : Prims) : Prop :=
  ∀ b, p.compress b ≠ []

/-- Big-endian `u32` byte encoding (wrapping above `2 ^ 32`, as the `as
u32` casts do). -/
def be32 (n : Nat) : List Nat :=
  [n / 2 ^ 24 % 256, n / 2 ^ 16 % 256, n / 2 ^ 8 % 256, n % 256]

/-- `u32::from_be_bytes`. -/
def decodeBe32 (b0 b1 b2 b3 : Nat) : Nat :=
  ((b0 * 256 + b1) * 256 + b2) * 256 + b3

/-- `derive_nonce_pfx`: first 12 bytes of `SHA-256(key || digest)`. -/
def derive_nonce_pfx (p : Prims) (key digest : List Nat) : List Nat :=
  (p.sha256 (key ++ digest)).take 12

/-- Per-chunk nonce: `prefix[0..8] || counter_be32`. -/
def chunkNonce (pfx : List Nat) (counter : Nat) : List Nat :=
  pfx.take 8 ++ be32 counter

/-- Fuel-bounded split into `CHUNK_SIZE` pieces. -/
def chunksOfF : Nat → List Nat → List (List Nat)
  | _, [] => []
  | 0, l => [l]
  | fuel + 1, l => l.take CHUNK_SIZE :: chunksOfF fuel (l.drop CHUNK_SIZE)

/-- Split a byte list into successive `CHUNK_SIZE` pieces. -/
def chunksOf (l : List Nat) : List (List Nat) :=
  chunksOfF l.length l

/-- Encrypt successive chunks with counter-indexed nonces, each written as
`len_be32 || ciphertext`. -/
def encodeChunks (p : Prims) (key pfx : List Nat) : Nat → List (List Nat) → List Nat
  | _, [] => []
  | counter, c :: rest =>
    let ct := p.encrypt key (chunkNonce pfx counter) c
    be32 ct.length ++ ct ++ encodeChunks p key pfx (counter + 1) rest

/-- The store's on-disk state: content of the final sharded path for each
digest (`path_for` is injective in the digest, so files are keyed by
digest; `.tmp` and `.incomplete` artifacts are invisible to reads and
collapse under the atomic rename). -/
def FS : Type := List Nat → Option (List Nat)

/-- File creation at a digest's final path. -/
def fsInsert (fs : FS) (digest content : List Nat) : FS :=
  fun d => if d = digest then some content else fs d

/-- `BlobStore::put_reader`: hash and compress the plaintext, return early
when the blob already exists, otherwise write header plus chunked AEAD
ciphertexts and atomically install the file.  An empty compressed stream
produces the single hardcoded-length-16 chunk whose nonce is the full
12-byte prefix (source behaviour). -/
def put_reader (p : Prims) (key : List Nat) (fs : FS) (b : List Nat) : List Nat × FS :=
  let digest := p.sha256 b
  match fs digest with
  | some _ => (digest, fs)
  | none =>
    let comp := p.compress b
    let pfx := derive_nonce_pfx p key digest
    let body :=
      if comp.isEmpty then be32 16 ++ p.encrypt key pfx []
      else encodeChunks p key pfx 0 (chunksOf comp)
    (digest, fsInsert fs digest (FILE_MAGIC ++ FILE_VERSION :: be32 CHUNK_SIZE ++ body))

/-- `BlobStore::put` delegates to the streaming path over a slice
reader. -/
def put (p : Prims) (key : List Nat) (fs : FS) (b : List Nat) : List Nat × FS :=
  put_reader p key fs b

/-- `BlobStore::digest_of`. -/
def digest_of (p : Prims) (bytes : List Nat) : List Nat :=
  p.sha256 bytes

/-- Fuel-bounded chunk reading loop (`DecryptedCompressedReader::refill`):
read a 4-byte length, read that many ciphertext bytes, decrypt with the
counter-indexed nonce.  Fewer than 4 length bytes, or a truncated body,
ends the stream silently (the reader maps `UnexpectedEof` to end-of-
stream); a decryption failure is a hard error.  No bound against the
header's chunk size is applied — the reader never sees it. -/
def collectChunksF (p : Prims) (key pfx : List Nat) : Nat → Nat → List Nat →
    Option (List (List Nat))
  | 0, _, _ => some []
  | fuel + 1, counter, rem =>
    match rem with
    | b0 :: b1 :: b2 :: b3 :: body =>
      let clen := decodeBe32 b0 b1 b2 b3
      if body.length < clen then some []
      else
        match p.decrypt key (chunkNonce pfx counter) (body.take clen) with
        | none => none
        | some pt =>
          match collectChunksF p key pfx fuel (counter + 1) (body.drop clen) with
          | some pts => some (pt :: pts)
          | none => none
    | _ => some []

/-- Chunk reading with sufficient fuel. -/
def collectChunks (p : Prims) (key pfx : List Nat) (counter : Nat) (rem : List Nat) :
    Option (List (List Nat)) :=
  collectChunksF p key pfx (rem.length + 1) counter rem

/-- `BlobStore::get_to_writer`, returning the result and the bytes written
to the caller's sink.  On the streaming path the decrypted chunks are
decompressed and written through the hashing writer, and only then is the
digest compared; a mismatch is `Integrity` but the sink has already
received the bytes. -/
def get_to_writer (p : Prims) (key : List Nat) (fs : FS) (digest : List Nat) :
    Except Error Nat × List Nat :=
  match fs digest with
  | none => (Except.error Error.NotFound, [])
  | some file =>
    if file.length < 9 ∨ file.take 4 ≠ FILE_MAGIC then
      let pfx := derive_nonce_pfx p key digest
      match p.decrypt key pfx file with
      | none => (Except.error (Error.Crypto "decrypt(legacy)"), [])
      | some compressed =>
        match p.decompress compressed with
        | none => (Except.error Error.Integrity, [])
        | some out =>
          if p.sha256 out ≠ digest then (Except.error Error.Integrity, out)
          else (Except.ok out.length, out)
    else if file.getD 4 0 ≠ FILE_VERSION then (Except.error Error.Integrity, [])
    else
      let _chunk_size := decodeBe32 (file.getD 5 0) (file.getD 6 0) (file.getD 7 0)
        (file.getD 8 0)
      let pfx := derive_nonce_pfx p key digest
      match collectChunks p key pfx 0 (file.drop 9) with
      | none => (Except.error Error.Integrity, [])
      | some pts =>
        match p.decompress pts.flatten with
        | none => (Except.error Error.Integrity, [])
        | some out =>
          if p.sha256 out ≠ digest then (Except.error Error.Integrity, out)
          else (Except.ok out.length, out)

/-- Concrete primitives satisfying the AEAD and zstd contracts, used to
evaluate the blob-store theorems on explicit inputs: hashing is the
identity, compression prepends a marker byte, encryption appends a 16-byte
tag of zeros. -/
def idPrims : Prims where
  sha256 := fun b => b
  compress := fun b => 0 :: b
  decompress := fun c =>
    match c with
    | [] => none
    | _ :: t => some t
  encrypt := fun _ _ pt => pt ++ List.replicate 16 0
  decrypt := fun _ _ ct => if ct.length < 16 then none else some (ct.take (ct.length - 16))

end BlobStore

namespace Orchestrator

/-- gRPC status codes surfaced by the service. -/
inductive GStatus where
  | Unauthenticated
  | InvalidArgument
  | DeadlineExceeded
  | FailedPrecondition
  | PermissionDenied
  | ResourceExhausted
  | Internal
deriving DecidableEq

/-- `orca_v1::UsageHint` carried by an envelope. -/
structure Usage where
  tokens : Nat
  cost_micros : Nat
deriving DecidableEq

/-- `orca_v1::Envelope` (proto message; all fields present, `u64`s as
`Nat`). -/
structure PEnvelope where
  id : String
  parent_id : String
  trace_id : String
  agent : String
  kind : String
  payload_json : String
  timeout_ms : Nat
  protocol_version : Nat
  ts_ms : Nat
  usage : Option Usage
deriving DecidableEq

/-- `serde` image of the usage hint (keys in `serde_json` order). -/
def usageToJson : Option Usage → Json
  | some u => Json.objOf [("cost_micros", Json.num u.cost_micros), ("tokens", Json.num u.tokens)]
  | none => Json.null

/-- `serde_json::to_value` of an envelope: an object with the fields in
`BTreeMap` (sorted) order. -/
def envelopeToJson (e : PEnvelope) : Json :=
  Json.objOf
    [("agent", Json.str e.agent), ("id", Json.str e.id), ("kind", Json.str e.kind),
     ("parent_id", Json.str e.parent_id), ("payload_json", Json.str e.payload_json),
     ("protocol_version", Json.num e.protocol_version), ("timeout_ms", Json.num e.timeout_ms),
     ("trace_id", Json.str e.trace_id), ("ts_ms", Json.num e.ts_ms),
     ("usage", usageToJson e.usage)]

/-- String field read with the proto default. -/
def jGetStr (j : Json) (k : String) : String :=
  ((j.get k).bind Json.asStr).getD ""

/-- Numeric field read with the proto default. -/
def jGetNat (j : Json) (k : String) : Nat :=
  match j.get k with
  | some (Json.num n) => n.toNat
  | _ => 0

/-- `serde_json::from_value` back into an envelope (field-defaulting, as
the proto `serde` derivations do). -/
def jsonToEnvelope (j : Json) : Option PEnvelope :=
  some
    { id := jGetStr j "id", parent_id := jGetStr j "parent_id",
      trace_id := jGetStr j "trace_id", agent := jGetStr j "agent", kind := jGetStr j "kind",
      payload_json := jGetStr j "payload_json", timeout_ms := jGetNat j "timeout_ms",
      protocol_version := jGetNat j "protocol_version", ts_ms := jGetNat j "ts_ms",
      usage :=
        match j.get "usage" with
        | some (Json.obj u) =>
          some ⟨(match u.lookupKey "tokens" with
                 | some (Json.num n) => n.toNat
                 | _ => 0),
                (match u.lookupKey "cost_micros" with
                 | some (Json.num n) => n.toNat
                 | _ => 0)⟩
        | _ => none }

/-- One WAL line: `event_log::EventRecord` with a JSON payload. -/
structure WalRec where
  id : Nat
  ts_ms : Nat
  payload : Json
deriving DecidableEq

/-- Saturating `u64` addition (`u64::saturating_add`). -/
def satAddU64 (x n : Nat) : Nat :=
  min (x + n) (Budget.U64_MOD - 1)

/-- Insert-or-replace in an association list (a `DashMap` insert). -/
def assocPut {α β : Type} [BEq α] (k : α) (v : β) : List (α × β) → List (α × β)
  | [] => [(k, v)]
  | (k', v') :: t => if k' == k then (k, v) :: t else (k', v') :: assocPut k v t

/-- `OrchestratorService` state: the WAL (with the process-local monotonic
id counter), the idempotency set, the run index, the policy engine, and
the budget managers. -/
structure OrchState where
  wal : List WalRec
  next_id : Nat
  seen_ids : List String
  policy : Policy.Engine
  budget : Budget.Manager
  budgets_by_run : List (String × Budget.Manager)
  usage_by_run : List (String × (Nat × Nat))
  usage_by_run_agent : List ((String × String) × (Nat × Nat))
  run_start_ts_by_run : List (String × Nat)

/-- `JsonlEventLog::append` of one payload with the next monotonic id
(appends are modelled as always succeeding; the retry wrapper only
matters for transient IO failures). -/
def appendWal (st : OrchState) (now : Nat) (payload : Json) : OrchState :=
  { st with wal := st.wal ++ [⟨st.next_id, now, payload⟩], next_id := st.next_id + 1 }

/-- Optional string as a JSON value. -/
def optStrJson : Option String → Json
  | some s => Json.str s
  | none => Json.null

/-- `OrchestratorService::append_policy_audit`: emit a `policy_audit`
record only for Deny, Modify, or `allow_but_flag` outcomes. -/
def append_policy_audit (st : OrchState) (now : Nat) (phase : String)
    (run_id workflow_id : Option String) (env : Json) (d : Policy.Decision) : OrchState :=
  let outcome :=
    match d.kind with
    | Policy.DecisionKind.Deny => "denied"
    | Policy.DecisionKind.Modify => "modified"
    | Policy.DecisionKind.Allow =>
      if d.action = some "allow_but_flag" then "allowed_flagged" else "allowed"
  if (d.kind = Policy.DecisionKind.Deny ∨ d.kind = Policy.DecisionKind.Modify) ∨
      d.action = some "allow_but_flag" then
    appendWal st now
      (Json.objOf
        [("action", optStrJson d.action),
         ("agent", optStrJson ((env.get "agent").bind Json.asStr)),
         ("envelope_id", optStrJson ((env.get "id").bind Json.asStr)),
         ("envelope_kind", optStrJson ((env.get "kind").bind Json.asStr)),
         ("event", Json.str "policy_audit"),
         ("outcome", Json.str outcome),
         ("phase", Json.str phase),
         ("reason", optStrJson d.reason),
         ("rule_name", optStrJson d.rule_name),
         ("run_id", optStrJson run_id),
         ("trace_id", optStrJson ((env.get "trace_id").bind Json.asStr)),
         ("workflow_id", optStrJson workflow_id)])
  else st

/-- `OrchestratorService::check_auth` against the configured expected
token (comparison is constant-time in the source; equality here). -/
def check_auth (expected got : Option String) : Except GStatus Unit :=
  match expected with
  | some required =>
    match got with
    | some g => if g = required then Except.ok () else Except.error GStatus.Unauthenticated
    | none => Except.error GStatus.Unauthenticated
  | none => Except.ok ()

/-- `OrchestratorService::reject_if_expired_or_version`: TTL first
(saturating `now - ts_ms`), then the protocol version. -/
def reject_if_expired_or_version (now : Nat) (env : PEnvelope) : Except GStatus Unit :=
  if env.timeout_ms > 0 ∧ now - env.ts_ms > env.timeout_ms then
    Except.error GStatus.DeadlineExceeded
  else if env.protocol_version ≠ 1 then Except.error GStatus.FailedPrecondition
  else Except.ok ()

/-- `OrchestratorService::redact_event_payload`: re-apply policy redaction
to an event's embedded `envelope` object. -/
def redact_event_payload (st : OrchState) (payload : Json) : Json :=
  match payload.get "envelope" with
  | some env =>
    if env.isObj then
      match (st.policy.pre_submit_task env).payload with
      | some red => payload.setKey "envelope" red
      | none => payload
    else payload
  | none => payload

/-- Budget threshold handling of `submit_task`: `budget_exceeded` plus
`ResourceExhausted` when exceeded, a `budget_warning` record on the
warning levels. -/
def budgetEvents (st : OrchState) (now : Nat) (run_id : String)
    (status : Budget.BudgetState) : Except GStatus Unit × OrchState :=
  match status with
  | Budget.BudgetState.Exceeded =>
    (Except.error GStatus.ResourceExhausted,
      appendWal st now
        (Json.objOf [("event", Json.str "budget_exceeded"), ("run_id", Json.str run_id)]))
  | Budget.BudgetState.Warning90 =>
    (Except.ok (),
      appendWal st now
        (Json.objOf
          [("event", Json.str "budget_warning"), ("level", Json.str "90"),
           ("run_id", Json.str run_id)]))
  | Budget.BudgetState.Warning80 =>
    (Except.ok (),
      appendWal st now
        (Json.objOf
          [("event", Json.str "budget_warning"), ("level", Json.str "80"),
           ("run_id", Json.str run_id)]))
  | Budget.BudgetState.Within => (Except.ok (), st)

/-- `OrchestratorService::submit_task`: authn, envelope and TTL checks,
idempotency, pre-policy with audit, budget, usage accounting with the
`usage_update` append, `task_enqueued` append, optional post-submit hook,
and the end-of-run summary. -/
def submit_task (st : OrchState) (now : Nat) (expected_token auth_header : Option String)
    (run_id : String) (task : Option PEnvelope) : Except GStatus Bool × OrchState :=
  match check_auth expected_token auth_header with
  | Except.error e => (Except.error e, st)
  | Except.ok () =>
    match task with
    | none => (Except.error GStatus.InvalidArgument, st)
    | some env0 =>
      match reject_if_expired_or_version now env0 with
      | Except.error e => (Except.error e, st)
      | Except.ok () =>
        if env0.id ∈ st.seen_ids then (Except.ok true, st)
        else
          let env_json := envelopeToJson env0
          let decision := st.policy.pre_submit_task env_json
          let st := append_policy_audit st now "pre_submit_task" (some run_id) none env_json
            decision
          match decision.kind with
          | Policy.DecisionKind.Deny => (Except.error GStatus.PermissionDenied, st)
          | dk =>
            let envOpt :=
              if dk = Policy.DecisionKind.Modify then
                jsonToEnvelope
                  (match decision.payload with
                   | some pl => pl
                   | none => env_json)
              else some env0
            match envOpt with
            | none => (Except.error GStatus.Internal, st)
            | some env =>
              let tokens_inc :=
                match env.usage with
                | some h => if h.tokens > 0 then h.tokens else 1
                | none => 1
              let cost_inc :=
                match env.usage with
                | some h => if h.cost_micros > 0 then h.cost_micros else 0
                | none => 0
              let bst :=
                match List.lookup run_id st.budgets_by_run with
                | some mgr =>
                  let mgr' := mgr.add_usage tokens_inc cost_inc
                  let st :=
                    { st with budgets_by_run := assocPut run_id mgr' st.budgets_by_run }
                  budgetEvents st now run_id mgr'.status
                | none =>
                  let mgr' := st.budget.add_usage tokens_inc cost_inc
                  let st := { st with budget := mgr' }
                  budgetEvents st now run_id mgr'.status
              match bst with
              | (Except.error e, st) => (Except.error e, st)
              | (Except.ok (), st) =>
                let prev := (List.lookup run_id st.usage_by_run).getD (0, 0)
                let t' := satAddU64 prev.1 tokens_inc
                let c' := satAddU64 prev.2 cost_inc
                let st := { st with usage_by_run := assocPut run_id (t', c') st.usage_by_run }
                let aprev := (List.lookup (run_id, env.agent) st.usage_by_run_agent).getD (0, 0)
                let st :=
                  { st with
                    usage_by_run_agent :=
                      assocPut (run_id, env.agent)
                        (satAddU64 aprev.1 tokens_inc, satAddU64 aprev.2 cost_inc)
                        st.usage_by_run_agent }
                let elapsed :=
                  match List.lookup run_id st.run_start_ts_by_run with
                  | some ts => now - ts
                  | none => 0
                let st := appendWal st now
                  (Json.objOf
                    [("cost_micros", Json.num c'), ("elapsed_ms", Json.num elapsed),
                     ("event", Json.str "usage_update"), ("run_id", Json.str run_id),
                     ("tokens", Json.num t')])
                let st :=
                  { st with
                    seen_ids :=
                      if env.id ∈ st.seen_ids then st.seen_ids else env.id :: st.seen_ids }
                let env_json2 := envelopeToJson env
                let evt := redact_event_payload st
                  (Json.objOf
                    [("envelope", env_json2), ("event", Json.str "task_enqueued"),
                     ("run_id", Json.str run_id)])
                let st := appendWal st now evt
                let pst :=
                  if env.timeout_ms > 0 then
                    let post := st.policy.post_submit_task
                      (Json.objOf [("result", Json.str "stub")])
                    let audit_env := Json.objOf
                      [("agent", Json.str env.agent), ("id", Json.str env.id),
                       ("kind", Json.str env.kind), ("trace_id", Json.str env.trace_id)]
                    let st := append_policy_audit st now "post_submit_task" (some run_id) none
                      audit_env post
                    if post.kind = Policy.DecisionKind.Deny then
                      (Except.error GStatus.PermissionDenied, st)
                    else (Except.ok (), st)
                  else (Except.ok (), st)
                match pst with
                | (Except.error e, st) => (Except.error e, st)
                | (Except.ok (), st) =>
                  let st :=
                    if env.kind = "agent_result" then
                      match List.lookup run_id st.usage_by_run with
                      | some tc =>
                        let breakdown :=
                          (st.usage_by_run_agent.filter fun kv => kv.1.1 == run_id).map
                            fun kv =>
                              Json.objOf
                                [("agent", Json.str kv.1.2), ("cost_micros", Json.num kv.2.2),
                                 ("tokens", Json.num kv.2.1)]
                        let dur :=
                          match List.lookup run_id st.run_start_ts_by_run with
                          | some ts => now - ts
                          | none => 0
                        appendWal st now
                          (Json.objOf
                            [("by_agent", Json.arrOf breakdown), ("cost_micros", Json.num tc.2),
                             ("duration_ms", Json.num dur), ("event", Json.str "run_summary"),
                             ("run_id", Json.str run_id), ("tokens", Json.num tc.1)])
                      | none => st
                    else st
                  (Except.ok true, st)

/-- The run index rebuilt by `replay_on_start`, together with the
idempotency set (`seen_ids`); `usage_by_run` is part of `RunIndex` in the
source and is included here so that replay can be compared with the live
state. -/
structure RunIndex where
  last_event_id_by_run : List (String × Nat)
  usage_by_run : List (String × (Nat × Nat))
  run_start_ts_by_run : List (String × Nat)
  seen_ids : List String
deriving DecidableEq

/-- The run id a replayed record is attributed to: `run_id`, else
`workflow_id`. -/
def recRunOf (r : WalRec) : Option String :=
  ((r.payload.get "run_id").bind Json.asStr).orElse
    (fun _ => (r.payload.get "workflow_id").bind Json.asStr)

/-- The envelope id carried by a replayed record, if any. -/
def recEnvIdOf (r : WalRec) : Option String :=
  ((r.payload.get "envelope").bind (fun e => e.get "id")).bind Json.asStr

/-- Set-like insert into the seen-id list. -/
def insertSeen (i : String) (l : List String) : List String :=
  if i ∈ l then l else i :: l

/-- One record of `replay_on_start`'s loop: track the last event id per
run, the `start_run` timestamp, and any envelope id. -/
def replayStep (ix : RunIndex) (rec : WalRec) : RunIndex :=
  let ix :=
    match recRunOf rec with
    | some run =>
      let ix :=
        { ix with last_event_id_by_run := assocPut run rec.id ix.last_event_id_by_run }
      if (rec.payload.get "event").bind Json.asStr = some "start_run" then
        { ix with run_start_ts_by_run := assocPut run rec.ts_ms ix.run_start_ts_by_run }
      else ix
    | none => ix
  match recEnvIdOf rec with
  | some envid => { ix with seen_ids := insertSeen envid ix.seen_ids }
  | none => ix

/-- `OrchestratorService::replay_on_start`: fold the whole WAL over
`replayStep`, starting from the empty index of a fresh service. -/
def replay_on_start (wal : List WalRec) : RunIndex :=
  wal.foldl replayStep ⟨[], [], [], []⟩

/-- Spec-side: the id of the last WAL record attributed to a run. -/
def lastIdSpec (wal : List WalRec) (run : String) : Option Nat :=
  ((wal.filter fun r => recRunOf r == some run).map WalRec.id).getLast?

/-- Spec-side: the timestamp of the last `start_run` record of a run. -/
def startTsSpec (wal : List WalRec) (run : String) : Option Nat :=
  ((wal.filter fun r =>
      recRunOf r == some run &&
        (r.payload.get "event").bind Json.asStr == some "start_run").map
    WalRec.ts_ms).getLast?

/-- Spec-side: every envelope id occurring in the WAL. -/
def envIdsOf (wal : List WalRec) : List String :=
  wal.filterMap recEnvIdOf

/-- A fresh budget manager with no limits. -/
def emptyManager : Budget.Manager :=
  ⟨⟨none, none⟩, ⟨0, 0⟩⟩

/-- A loaded policy with no rules and no allowlist (everything allowed). -/
def permissivePolicy : Policy.Engine :=
  ⟨[], none, true⟩

/-- A fresh service state with the permissive policy loaded. -/
def initState : OrchState :=
  { wal := [], next_id := 1, seen_ids := [], policy := permissivePolicy,
    budget := emptyManager, budgets_by_run := [], usage_by_run := [],
    usage_by_run_agent := [], run_start_ts_by_run := [] }

/-- A plain task envelope with an empty JSON payload. -/
def env0 : PEnvelope :=
  ⟨"m1", "", "t", "A", "agent_task", "\x7b\x7d", 0, 1, 5, none⟩

end Orchestrator

namespace Budget

/-! ### Bit-exact model of the `f64` arithmetic in `Manager::status`

`status` computes `(t as f64) / (m as f64)` for each configured nonzero
limit, takes the `f64` maximum of the two ratios, and compares it against
the literals `1.0`, `0.90` and `0.80`.  Every value arising here is a
finite nonnegative binary64 number in the normal range, so each one is an
exact dyadic rational; the model represents a ratio value `x` by the
natural number `x * 2 ^ 128`, and a cast `u64` value by itself (every
`u64` rounds to a nonnegative integer).  Rounding is IEEE-754
round-to-nearest, ties to even, applied to the exact real result of each
operation, which is the semantics of the `as f64` cast and of `f64`
division. -/

/-- Fuel-bounded floor of the base-2 logarithm: `log2F fuel n = ⌊log₂ n⌋`
for `1 ≤ n < 2 ^ fuel`. -/
def log2F : Nat → Nat → Nat
  | 0, _ => 0
  | fuel + 1, n => if n ≥ 2 then log2F fuel (n / 2) + 1 else 0

/-- The binary64 value of a `u64` cast (`n as f64`): `n` itself below
`2 ^ 53`, otherwise `n` rounded to 53 significant bits, round-to-nearest
with ties to even.  The result is an exact natural number. -/
def castU64 (n : Nat) : Nat :=
  if n < 2 ^ 53 then n
  else
    let d := log2F 64 n - 52
    let q := n / 2 ^ d
    let r := n % 2 ^ d
    let q' := if 2 * r > 2 ^ d ∨ (2 * r = 2 ^ d ∧ q % 2 = 1) then q + 1 else q
    q' * 2 ^ d

/-- The scaled binary64 value `1.0` (`1 * 2 ^ 128`). -/
def F64_ONE : Nat := 2 ^ 128

/-- The scaled binary64 value of the literal `0.90`: the double nearest
`9 / 10` is `8106479329266893 * 2 ^ (-53)`, slightly above `9 / 10`. -/
def F64_C90 : Nat := 8106479329266893 * 2 ^ 75

/-- The scaled binary64 value of the literal `0.80`: the double nearest
`8 / 10` is `7205759403792794 * 2 ^ (-53)`, slightly above `8 / 10`. -/
def F64_C80 : Nat := 7205759403792794 * 2 ^ 75

/-- Correctly rounded binary64 division of two exact nonnegative double
values, the result scaled by `2 ^ 128`.  The scaled numerator is
normalised so that the significand `q` lies in `[2 ^ 52, 2 ^ 53)`, the
remainder decides round-to-nearest with ties to even, and a carry to
`2 ^ 53` moves to the next binade.  `0` when `a = 0` (and, vacuously,
when `b = 0`, which the caller guards against). -/
def f64div (a b : Nat) : Nat :=
  if a = 0 ∨ b = 0 then 0
  else
    let N := a * 2 ^ 128
    let F := log2F 200 (N / (b * 2 ^ 52))
    let den := b * 2 ^ F
    let q := N / den
    let r := N % den
    let s := if 2 * r > den ∨ (2 * r = den ∧ q % 2 = 1) then q + 1 else q
    if s = 2 ^ 53 then 2 ^ 52 * 2 ^ (F + 1) else s * 2 ^ F

/-- One ratio of `Manager::status`: `(v as f64) / (m as f64)` for a
configured nonzero limit, `0.0` for a missing or zero limit (scaled). -/
def ratioF64 (v : Nat) (mx : Option Nat) : Nat :=
  match mx with
  | some m => if m > 0 then f64div (castU64 v) (castU64 m) else 0
  | none => 0

/-- `Manager::status` with the source's `f64` arithmetic modelled
bit-exactly: both ratios, their `f64` maximum (plain maximum: no NaN can
arise), and the comparisons against the binary64 values of the literals
`1.0`, `0.90` and `0.80`. -/
def Manager.statusF64 (m : Manager) : BudgetState :=
  let token_ratio := ratioF64 m.counters.tokens m.cfg.max_tokens
  let cost_ratio := ratioF64 m.counters.cost_micros m.cfg.max_cost_micros
  let r := max token_ratio cost_ratio
  if r > F64_ONE then BudgetState.Exceeded
  else if r ≥ F64_C90 then BudgetState.Warning90
  else if r ≥ F64_C80 then BudgetState.Warning80
  else BudgetState.Within

end Budget

/-! ## Theorems for claims C9 and C6 -/

namespace Budget

/-- Claim C9 counterexample: `add_usage` is not a saturating add.  With the
tokens counter at `u64::MAX` (`2 ^ 64 - 1`), adding 1 wraps to 0, whereas a
saturating add (`min (x + n) u64::MAX`) would keep the counter at
`u64::MAX`. -/
theorem C9_counterexample :
    (Manager.add_usage ⟨⟨none, none⟩, ⟨U64_MOD - 1, 0⟩⟩ 1 0).counters.tokens = 0 ∧
      min (U64_MOD - 1 + 1) (U64_MOD - 1) ≠ 0 := by
  constructor
  · show (U64_MOD - 1 + 1) % U64_MOD = 0
    norm_num [U64_MOD]
  · norm_num [U64_MOD]

/-- Claim C9 (amended): `Manager::add_usage` performs a wrapping add modulo
`2 ^ 64` on each counter: for current counter values below `2 ^ 64`, adding
`t` (resp. `c`) yields `(x + t) % 2 ^ 64` (resp. `(y + c) % 2 ^ 64`). -/
theorem C9_add_usage_wraps (m : Manager) (t c : Nat)
    (ht : m.counters.tokens < U64_MOD) (hc : m.counters.cost_micros < U64_MOD) :
    (m.add_usage t c).counters.tokens = (m.counters.tokens + t) % U64_MOD ∧
      (m.add_usage t c).counters.cost_micros = (m.counters.cost_micros + c) % U64_MOD := by
  unfold Manager.add_usage Counters.add_tokens Counters.add_cost_micros
  rcases Nat.eq_zero_or_pos t with ht0 | ht0 <;> rcases Nat.eq_zero_or_pos c with hc0 | hc0 <;>
    simp [ht0, hc0, Nat.mod_eq_of_lt ht, Nat.mod_eq_of_lt hc, Nat.lt_irrefl]

/-- Concrete instantiation of `C9_add_usage_wraps`. -/
theorem C9_add_usage_wraps_witness :
    (Manager.add_usage ⟨⟨none, none⟩, ⟨5, 7⟩⟩ 3 0).counters.tokens = (5 + 3) % U64_MOD ∧
      (Manager.add_usage ⟨⟨none, none⟩, ⟨5, 7⟩⟩ 3 0).counters.cost_micros = (7 + 0) % U64_MOD :=
  C9_add_usage_wraps ⟨⟨none, none⟩, ⟨5, 7⟩⟩ 3 0 (by norm_num [U64_MOD]) (by norm_num [U64_MOD])


end Budget

namespace PluginHost

/-- Claim C6 counterexample: with the default fail-closed verifier
(`require_signed_plugins = true`) and a manifest carrying no signature, a
well-formed digest that does not match SHA-256 of the WASM yields
`MissingSignature`, not `DigestMismatch` — the claim's "regardless of
whether a signature is present or absent" fails for absent signatures. -/
theorem C6_counterexample :
    normalize_and_validate_digest
        "0000000000000000000000000000000000000000000000000000000000000000" =
      Except.ok (List.replicate 32 0) ∧
    (fun _ : List Nat => List.replicate 32 1) [0] ≠ List.replicate 32 0 ∧
    ManifestVerifier.verify (fun _ => List.replicate 32 1) ⟨true⟩
        ⟨"p", "1", "0000000000000000000000000000000000000000000000000000000000000000",
          none, none⟩ [0] =
      Except.error VerificationError.MissingSignature := by
  refine ⟨by decide, by decide, by decide⟩

/-- Claim C6 (amended): for every manifest whose `wasm_digest` is
well-formed but differs from SHA-256 of the WASM bytes, `verify` returns
`DigestMismatch` provided the signature/SBOM policy gates pass (signatures
not required, or both signature and SBOM present); the digest comparison
precedes all signature validation, so the signature's content is
irrelevant. -/
theorem C6_digest_mismatch (sha256 : List Nat → List Nat) (v : ManifestVerifier)
    (m : PluginManifest) (wasm : List Nat) (expected : List Nat)
    (hfmt : normalize_and_validate_digest m.wasm_digest = Except.ok expected)
    (hne : sha256 wasm ≠ expected)
    (hgate : v.require_signed_plugins = false ∨ (m.signature ≠ none ∧ m.sbom_ref ≠ none)) :
    ManifestVerifier.verify sha256 v m wasm =
      Except.error VerificationError.DigestMismatch := by
  rcases hgate with hg | hgate
  · simp [ManifestVerifier.verify, hg, hfmt, hne]
  · rcases hgate with ⟨hs, hb⟩
    simp [ManifestVerifier.verify, hs, hb, hfmt, hne]

/-- Concrete instantiation of `C6_digest_mismatch`. -/
theorem C6_digest_mismatch_witness :
    ManifestVerifier.verify (fun _ => List.replicate 32 1) ⟨false⟩
        ⟨"p", "1", "0000000000000000000000000000000000000000000000000000000000000000",
          none, none⟩ [] =
      Except.error VerificationError.DigestMismatch :=
  C6_digest_mismatch (fun _ => List.replicate 32 1) ⟨false⟩
    ⟨"p", "1", "0000000000000000000000000000000000000000000000000000000000000000", none, none⟩
    [] (List.replicate 32 0) (by decide) (by decide) (Or.inl rfl)


end PluginHost

namespace EventLog

/-- A passing attachment-list check means every element passes. -/
theorem checkAtts_forall_of_none :
    ∀ {l : List Attachment}, checkAtts l = none → ∀ x ∈ l, checkAtt x = none := by
  intro l
  induction l with
  | nil => intro _ x hx; cases hx
  | cons a t ih =>
    intro h x hx
    unfold checkAtts at h
    cases hca : checkAtt a with
    | some e => rw [hca] at h; cases h
    | none =>
      rw [hca] at h
      rcases List.mem_cons.mp hx with hx | hx
      · rw [hx]; exact hca
      · exact ih h x hx

/-- Inserting preserves the multiset of attachments. -/
theorem perm_insertByDigest (a : Attachment) (l : List Attachment) :
    (insertByDigest a l).Perm (a :: l) := by
  induction l with
  | nil => exact List.Perm.refl _
  | cons b t ih =>
    unfold insertByDigest
    by_cases h : a.digest_sha256 < b.digest_sha256
    · simp [h]
    · simp only [h, if_false]
      exact (ih.cons b).trans (List.Perm.swap a b t)

/-- Inserting into a digest-sorted list keeps it sorted. -/
theorem sorted_insertByDigest (a : Attachment) :
    ∀ {l : List Attachment}, l.Sorted attLe → (insertByDigest a l).Sorted attLe := by
  intro l
  induction l with
  | nil => intro _; simp [insertByDigest, List.Sorted]
  | cons b t ih =>
    intro h
    rw [List.sorted_cons] at h
    obtain ⟨hb, ht⟩ := h
    unfold insertByDigest
    by_cases hab : a.digest_sha256 < b.digest_sha256
    · simp only [hab, if_true]
      rw [List.sorted_cons]
      refine ⟨?_, List.sorted_cons.mpr ⟨hb, ht⟩⟩
      intro x hx
      rcases List.mem_cons.mp hx with hx | hx
      · rw [hx]; exact le_of_lt hab
      · exact le_trans (le_of_lt hab) (hb x hx)
    · simp only [hab, if_false]
      rw [List.sorted_cons]
      refine ⟨?_, ih ht⟩
      intro x hx
      have hx' := (perm_insertByDigest a t).mem_iff.mp hx
      rcases List.mem_cons.mp hx' with hx' | hx'
      · rw [hx']; exact le_of_not_lt hab
      · exact hb x hx'

/-- `sortAtts` permutes its input. -/
theorem sortAtts_perm (l : List Attachment) : (sortAtts l).Perm l := by
  induction l with
  | nil => exact List.Perm.refl _
  | cons a t ih =>
    unfold sortAtts
    exact (perm_insertByDigest a (sortAtts t)).trans (ih.cons a)

/-- `sortAtts` produces a digest-sorted list. -/
theorem sortAtts_sorted (l : List Attachment) : (sortAtts l).Sorted attLe := by
  induction l with
  | nil => simp [sortAtts, List.Sorted]
  | cons a t ih => exact sorted_insertByDigest a ih

end EventLog

namespace EventLog

/-- Claim C8 counterexample: `to_jsonl_line` accepts a digest of 64
UPPERCASE hex characters (`is_ascii_hexdigit` is case-insensitive),
although the claim requires failure for any digest that is not 64
lowercase hex characters. -/
theorem C8_counterexample :
    isLowerHexSha256 "AAAAAAAAAAAAAAAAAAAAAAAAAAAAAAAAAAAAAAAAAAAAAAAAAAAAAAAAAAAAAAAA" = false ∧
    isErrLine
      (to_jsonl_line
        ⟨1, 2, 2, EventTypeV2.TaskEnqueued, "r", "t", Json.null,
          some [⟨"AAAAAAAAAAAAAAAAAAAAAAAAAAAAAAAAAAAAAAAAAAAAAAAAAAAAAAAAAAAAAAAA", 1, "x", none, "none"⟩],
          Json.null⟩) = false := by
  constructor
  · decide
  · decide

/-- Claim C8 (amended): for every v2 record with attachments,
`to_jsonl_line` fails when there are more than 8 attachments, when any
`digest_sha256` is not exactly 64 hex characters (of either case), when
any of the `mime`/`encoding`/`compression` strings exceeds 128 bytes, or
when the serialized (sorted) attachments exceed 8 KiB; on success the
emitted line serializes the attachments sorted ascending by digest, a
permutation of the input attachments. -/
theorem C8_attachment_validation (rec : RecordV2) (att : List Attachment)
    (hatt : rec.attachments = some att) :
    (att.length > ATTACH_MAX_COUNT → isErrLine (to_jsonl_line rec) = true) ∧
    ((∃ x ∈ att, is_hex_sha256 x.digest_sha256 = false) →
      isErrLine (to_jsonl_line rec) = true) ∧
    ((∃ x ∈ att, hasOversizedField x = true) → isErrLine (to_jsonl_line rec) = true) ∧
    (strBytes (serializeAtts (sortAtts att)) > TOTAL_ATTACH_JSON_MAX →
      isErrLine (to_jsonl_line rec) = true) ∧
    (∀ s, to_jsonl_line rec = Except.ok s →
      s = serializeRecordWith rec (some (sortAtts att)) ∧
      (sortAtts att).Sorted attLe ∧ (sortAtts att).Perm att) := by
  by_cases hc : att.length > ATTACH_MAX_COUNT
  · have hline : to_jsonl_line rec = Except.error "attachments count exceeds max" := by
      unfold to_jsonl_line
      rw [hatt]
      simp [hc]
    refine ⟨fun _ => by simp [hline, isErrLine], fun _ => by simp [hline, isErrLine],
      fun _ => by simp [hline, isErrLine], fun _ => by simp [hline, isErrLine], ?_⟩
    intro s hs
    rw [hline] at hs
    cases hs
  · cases hk : checkAtts att with
    | some e =>
      have hline : to_jsonl_line rec = Except.error e := by
        unfold to_jsonl_line
        rw [hatt]
        simp [hc, hk]
      refine ⟨fun _ => by simp [hline, isErrLine], fun _ => by simp [hline, isErrLine],
        fun _ => by simp [hline, isErrLine], fun _ => by simp [hline, isErrLine], ?_⟩
      intro s hs
      rw [hline] at hs
      cases hs
    | none =>
      by_cases hsz : strBytes (serializeAtts (sortAtts att)) > TOTAL_ATTACH_JSON_MAX
      · have hline : to_jsonl_line rec = Except.error "attachments too large" := by
          unfold to_jsonl_line
          rw [hatt]
          simp [hc, hk, hsz]
        refine ⟨fun _ => by simp [hline, isErrLine], fun _ => by simp [hline, isErrLine],
          fun _ => by simp [hline, isErrLine], fun _ => by simp [hline, isErrLine], ?_⟩
        intro s hs
        rw [hline] at hs
        cases hs
      · have hline :
            to_jsonl_line rec = Except.ok (serializeRecordWith rec (some (sortAtts att))) := by
          unfold to_jsonl_line
          rw [hatt]
          simp [hc, hk, hsz]
        refine ⟨fun h => absurd h hc, ?_, ?_, fun h => absurd h hsz, ?_⟩
        · rintro ⟨x, hx, hbad⟩
          have := checkAtts_forall_of_none hk x hx
          unfold checkAtt at this
          rw [hbad] at this
          simp at this
        · rintro ⟨x, hx, hbad⟩
          have := checkAtts_forall_of_none hk x hx
          unfold checkAtt at this
          rw [hbad] at this
          by_cases hhex : is_hex_sha256 x.digest_sha256 <;> simp [hhex] at this
        · intro s hs
          rw [hline] at hs
          cases hs
          exact ⟨rfl, sortAtts_sorted att, sortAtts_perm att⟩

end EventLog

namespace EventLog

/-- Concrete instantiation of `C8_attachment_validation`: a record with
nine attachments fails to serialize. -/
theorem C8_attachment_validation_witness :
    isErrLine
      (to_jsonl_line
        ⟨1, 2, 2, EventTypeV2.TaskEnqueued, "r", "t", Json.null,
          some (List.replicate 9 ⟨"cccccccccccccccccccccccccccccccccccccccccccccccccccccccccccccccc", 1, "x", none, "none"⟩),
          Json.null⟩) = true :=
  (C8_attachment_validation _ _ rfl).1 (by decide)

end EventLog

namespace Policy

/-- The index component of an enumerated entry is at least the starting
index. -/
theorem fst_le_of_mem_enumFrom {α : Type} :
    ∀ {l : List α} {n : Nat} {x : Nat × α}, x ∈ l.enumFrom n → n ≤ x.1 := by
  intro l
  induction l with
  | nil => intro n x hx; cases hx
  | cons a t ih =>
    intro n x hx
    rw [List.enumFrom_cons] at hx
    rcases List.mem_cons.mp hx with h | h
    · rw [h]
    · exact Nat.le_of_succ_le (ih h)

/-- Enumeration indices are strictly increasing. -/
theorem pairwise_fst_lt_enumFrom {α : Type} (l : List α) :
    ∀ n, List.Pairwise (fun p q => p.1 < q.1) (l.enumFrom n) := by
  induction l with
  | nil => intro n; exact List.Pairwise.nil
  | cons a t ih =>
    intro n
    rw [List.enumFrom_cons]
    refine List.Pairwise.cons ?_ (ih (n + 1))
    intro q hq
    exact Nat.lt_of_succ_le (fst_le_of_mem_enumFrom hq)

/-- The rule indices carried by the interpreter's matches are strictly
increasing (file order). -/
theorem pairwise_idx_matchedDecisions (eng : Engine) (envelope : Json) :
    List.Pairwise (fun a b : Int × Nat × Decision => a.2.1 < b.2.1)
      (eng.matchedDecisions envelope) := by
  unfold Engine.matchedDecisions
  refine List.Pairwise.filterMap _ ?_ (pairwise_fst_lt_enumFrom eng.rules 0)
  intro p q hpq c hc d hd
  simp only [Option.mem_def, Option.map_eq_some'] at hc hd
  obtain ⟨_, _, hc2⟩ := hc
  obtain ⟨_, _, hd2⟩ := hd
  rw [← hc2, ← hd2]
  exact hpq

/-- The seed never exceeds the running maximum. -/
theorem foldl_max_le_self (x : Int) (xs : List Int) : x ≤ xs.foldl max x := by
  induction xs generalizing x with
  | nil => exact le_refl x
  | cons a t ih => exact le_trans (le_max_left x a) (ih (max x a))

/-- Every element is below the running maximum. -/
theorem foldl_max_le_mem (xs : List Int) (x : Int) : ∀ y ∈ xs, y ≤ xs.foldl max x := by
  induction xs generalizing x with
  | nil => intro y hy; cases hy
  | cons a t ih =>
    intro y hy
    rcases List.mem_cons.mp hy with h | h
    · rw [h]
      exact le_trans (le_max_right x a) (foldl_max_le_self _ t)
    · exact ih (max x a) y h

/-- The running maximum is the seed or one of the elements. -/
theorem foldl_max_mem (xs : List Int) (x : Int) :
    xs.foldl max x = x ∨ xs.foldl max x ∈ xs := by
  induction xs generalizing x with
  | nil => left; rfl
  | cons a t ih =>
    have hstep : (a :: t).foldl max x = t.foldl max (max x a) := rfl
    rcases ih (max x a) with h | h
    · rcases max_choice x a with hm | hm
      · left; rw [hstep, h, hm]
      · right; rw [hstep, h, hm]; exact List.mem_cons_self a t
    · right
      rw [hstep]
      exact List.mem_cons_of_mem a h

/-- Characterization of the best-match fold: starting from a seed, the
fold returns the first element (in list order, witnessed by the strictly
increasing index component) attaining the maximal restrictiveness. -/
theorem pickBetter_props :
    ∀ (l : List (Int × Nat × Decision)) (b : Int × Nat × Decision),
      List.Pairwise (fun a c : Int × Nat × Decision => a.2.1 < c.2.1) (b :: l) →
      ∃ r, l.foldl pickBetter (some b) = some r ∧ r ∈ b :: l ∧
        (∀ m ∈ b :: l, sevOf m.2.2.kind ≤ sevOf r.2.2.kind) ∧
        (∀ m ∈ b :: l, sevOf m.2.2.kind = sevOf r.2.2.kind → r.2.1 ≤ m.2.1) := by
  intro l
  induction l with
  | nil =>
    intro b _
    refine ⟨b, rfl, List.mem_cons_self b [], ?_, ?_⟩
    · intro m hm
      rcases List.mem_cons.mp hm with h | h
      · rw [h]
      · cases h
    · intro m hm _
      rcases List.mem_cons.mp hm with h | h
      · rw [h]
      · cases h
  | cons x t ih =>
    intro b hpw
    have hpw_bx : b.2.1 < x.2.1 := (List.pairwise_cons.mp hpw).1 x (List.mem_cons_self x t)
    have hpw_xt : List.Pairwise (fun a c : Int × Nat × Decision => a.2.1 < c.2.1) (x :: t) :=
      (List.pairwise_cons.mp hpw).2
    have hstep : (x :: t).foldl pickBetter (some b) = t.foldl pickBetter (pickBetter (some b) x) :=
      rfl
    by_cases hsev : sevOf x.2.2.kind > sevOf b.2.2.kind
    · have hpick : pickBetter (some b) x = some x := by
        unfold pickBetter
        simp [hsev]
      obtain ⟨r, hr, hrmem, hrmax, hrfirst⟩ := ih x hpw_xt
      refine ⟨r, by rw [hstep, hpick]; exact hr, ?_, ?_, ?_⟩
      · exact List.mem_cons_of_mem b hrmem
      · intro m hm
        rcases List.mem_cons.mp hm with h | h
        · rw [h]
          exact le_trans (le_of_lt hsev) (hrmax x (List.mem_cons_self x t))
        · exact hrmax m h
      · intro m hm hms
        rcases List.mem_cons.mp hm with h | h
        · exfalso
          have h1 : sevOf b.2.2.kind < sevOf r.2.2.kind :=
            lt_of_lt_of_le hsev (hrmax x (List.mem_cons_self x t))
          rw [h] at hms
          rw [hms] at h1
          exact lt_irrefl _ h1
        · exact hrfirst m h hms
    · have hpick : pickBetter (some b) x = some b := by
        unfold pickBetter
        simp [hsev]
      have hpw_bt : List.Pairwise (fun a c : Int × Nat × Decision => a.2.1 < c.2.1) (b :: t) := by
        refine List.pairwise_cons.mpr ⟨?_, (List.pairwise_cons.mp hpw_xt).2⟩
        intro q hq
        exact lt_trans hpw_bx ((List.pairwise_cons.mp hpw_xt).1 q hq)
      obtain ⟨r, hr, hrmem, hrmax, hrfirst⟩ := ih b hpw_bt
      refine ⟨r, by rw [hstep, hpick]; exact hr, ?_, ?_, ?_⟩
      · rcases List.mem_cons.mp hrmem with h | h
        · rw [h]; exact List.mem_cons_self b (x :: t)
        · exact List.mem_cons_of_mem b (List.mem_cons_of_mem x h)
      · intro m hm
        rcases List.mem_cons.mp hm with h | h
        · exact hrmax m (by rw [h]; exact List.mem_cons_self b t)
        · rcases List.mem_cons.mp h with h2 | h2
          · rw [h2]
            exact le_trans (le_of_not_lt hsev) (hrmax b (List.mem_cons_self b t))
          · exact hrmax m (List.mem_cons_of_mem b h2)
      · intro m hm hms
        rcases List.mem_cons.mp hm with h | h
        · exact hrfirst m (by rw [h]; exact List.mem_cons_self b t) hms
        · rcases List.mem_cons.mp h with h2 | h2
          · -- m = x: the earlier seed b already attains at least x's rank
            have hxb : sevOf x.2.2.kind ≤ sevOf b.2.2.kind := le_of_not_lt hsev
            have hbr : sevOf b.2.2.kind ≤ sevOf r.2.2.kind :=
              hrmax b (List.mem_cons_self b t)
            have hbeq : sevOf b.2.2.kind = sevOf r.2.2.kind := by
              rw [h2] at hms
              omega
            have hrb : r.2.1 ≤ b.2.1 := hrfirst b (List.mem_cons_self b t) hbeq
            rw [h2]
            exact le_trans hrb (le_of_lt hpw_bx)
          · exact hrfirst m (List.mem_cons_of_mem b h2) hms

end Policy

namespace Policy

/-- The computed maximum of a nonempty priority list bounds every element
and is attained. -/
theorem maxIntOf_props (x : Int) (xs : List Int) :
    (∀ y ∈ x :: xs, y ≤ (maxIntOf (x :: xs)).getD 0) ∧
      (maxIntOf (x :: xs)).getD 0 ∈ x :: xs := by
  have hval : (maxIntOf (x :: xs)).getD 0 = xs.foldl max x := rfl
  constructor
  · intro y hy
    rw [hval]
    rcases List.mem_cons.mp hy with h | h
    · rw [h]
      exact foldl_max_le_self _ _
    · exact foldl_max_le_mem _ _ _ h
  · rw [hval]
    rcases foldl_max_mem xs x with h | h
    · rw [h]
      exact List.mem_cons_self x xs
    · exact List.mem_cons_of_mem x h

/-- Selection property of the interpreter core: over any nonempty match
list with strictly increasing indices, the filter-by-maximal-priority and
best-severity fold return the decision of a lexicographically maximal
match that is earliest in file order among equals. -/
theorem interpSelect (ms : List (Int × Nat × Decision)) (mp : Int)
    (hpw : List.Pairwise (fun a b : Int × Nat × Decision => a.2.1 < b.2.1) ms)
    (hmp_ge : ∀ m' ∈ ms, m'.1 ≤ mp)
    (hmp_mem : ∃ m' ∈ ms, m'.1 = mp) :
    ∃ m ∈ ms,
      (ms.filter fun x => x.1 = mp).foldl pickBetter none = some m ∧
      (∀ m' ∈ ms, lexLE (prioSev m') (prioSev m)) ∧
      (∀ m' ∈ ms, prioSev m' = prioSev m → m.2.1 ≤ m'.2.1) := by
  have hflne : ms.filter (fun x => x.1 = mp) ≠ [] := by
    obtain ⟨m', hm', hval⟩ := hmp_mem
    intro hempty
    have hin : m' ∈ ms.filter (fun x => x.1 = mp) :=
      List.mem_filter.mpr ⟨hm', by simp [hval]⟩
    rw [hempty] at hin
    cases hin
  rcases hflcons : ms.filter (fun x => x.1 = mp) with _ | ⟨b, l⟩
  · exact absurd hflcons hflne
  have hpw_fl : List.Pairwise (fun a c : Int × Nat × Decision => a.2.1 < c.2.1) (b :: l) := by
    rw [← hflcons]
    exact List.Pairwise.sublist (List.filter_sublist _) hpw
  obtain ⟨r, hrfold, hrmem, hrmax, hrfirst⟩ := pickBetter_props l b hpw_fl
  have hr_in_fl : r ∈ ms.filter (fun x => x.1 = mp) := by
    rw [hflcons]
    exact hrmem
  have hr_in_ms : r ∈ ms := (List.mem_filter.mp hr_in_fl).1
  have hr_pri : r.1 = mp := by
    have := (List.mem_filter.mp hr_in_fl).2
    simpa using this
  refine ⟨r, hr_in_ms, ?_, ?_, ?_⟩
  · rw [hflcons]
    exact hrfold
  · intro m' hm'
    by_cases hpri : m'.1 = mp
    · have hm'fl : m' ∈ b :: l := by
        rw [← hflcons]
        exact List.mem_filter.mpr ⟨hm', by simp [hpri]⟩
      right
      unfold prioSev
      exact ⟨by rw [hpri, hr_pri], hrmax m' hm'fl⟩
    · left
      unfold prioSev
      show m'.1 < r.1
      rw [hr_pri]
      exact lt_of_le_of_ne (hmp_ge m' hm') hpri
  · intro m' hm' heq
    unfold prioSev at heq
    rw [Prod.ext_iff] at heq
    obtain ⟨hpri, hsev⟩ := heq
    have hm'fl : m' ∈ b :: l := by
      rw [← hflcons]
      refine List.mem_filter.mpr ⟨hm', by simp; rw [hpri] at *; exact hr_pri ▸ rfl⟩
    exact hrfirst m' hm'fl hsev

end Policy

namespace Policy

/-- Claim C4: for every envelope that reaches the rule interpreter (no
built-in PII change, policy loaded, no tool-allowlist decision), the
returned decision belongs to a matching rule whose
`(priority, restrictiveness)` rank is lexicographically maximal among all
matches — highest priority first, then Deny over Modify over Allow — and
which is the earliest rule in file order among matches of equal rank;
when no rule matches, the decision is the empty Allow. -/
theorem C4_rule_precedence (eng : Engine) (envelope : Json)
    (hpii : (eng.scan_and_redact envelope (some "builtin_redact_pii")).kind ≠
      DecisionKind.Modify)
    (hloaded : eng.policy_loaded = true)
    (hallow : eng.check_tool_allowlist envelope = none) :
    (eng.matchedDecisions envelope = [] →
      eng.apply_rules_then_redact envelope = allowEmptyDecision) ∧
    (eng.matchedDecisions envelope ≠ [] →
      ∃ m ∈ eng.matchedDecisions envelope,
        eng.apply_rules_then_redact envelope = m.2.2 ∧
        (∀ m' ∈ eng.matchedDecisions envelope, lexLE (prioSev m') (prioSev m)) ∧
        (∀ m' ∈ eng.matchedDecisions envelope,
          prioSev m' = prioSev m → m.2.1 ≤ m'.2.1)) := by
  have happ :
      eng.apply_rules_then_redact envelope =
        (if (eng.matchedDecisions envelope).isEmpty then allowEmptyDecision
         else
           match ((eng.matchedDecisions envelope).filter
               (fun m => m.1 = (maxIntOf ((eng.matchedDecisions envelope).map
                 fun m => m.1)).getD 0)).foldl pickBetter none with
           | some b => b.2.2
           | none => allowEmptyDecision) := by
    unfold Engine.apply_rules_then_redact
    simp [hpii, hloaded, hallow]
  constructor
  · intro hms
    rw [happ, hms]
    simp
  · intro hne
    have hmap_ne : ((eng.matchedDecisions envelope).map fun m => m.1) ≠ [] := by
      simpa using hne
    rcases hm : (eng.matchedDecisions envelope).map (fun m => m.1) with _ | ⟨x, xs⟩
    · exact absurd hm hmap_ne
    have hprops := maxIntOf_props x xs
    rw [← hm] at hprops
    have hmp_ge : ∀ m' ∈ eng.matchedDecisions envelope,
        m'.1 ≤ (maxIntOf ((eng.matchedDecisions envelope).map fun m => m.1)).getD 0 := by
      intro m' hm'
      exact hprops.1 m'.1 (List.mem_map_of_mem (fun m => m.1) hm')
    have hmp_mem : ∃ m' ∈ eng.matchedDecisions envelope,
        m'.1 = (maxIntOf ((eng.matchedDecisions envelope).map fun m => m.1)).getD 0 := by
      obtain ⟨m', hm', hval⟩ := List.mem_map.mp hprops.2
      exact ⟨m', hm', hval⟩
    obtain ⟨m, hm_in, hfold, hmax, hfirst⟩ :=
      interpSelect (eng.matchedDecisions envelope)
        ((maxIntOf ((eng.matchedDecisions envelope).map fun m => m.1)).getD 0)
        (pairwise_idx_matchedDecisions eng envelope) hmp_ge hmp_mem
    refine ⟨m, hm_in, ?_, hmax, hfirst⟩
    rw [happ]
    have hemp : (eng.matchedDecisions envelope).isEmpty = false := by
      rcases hms : eng.matchedDecisions envelope with _ | ⟨a, t⟩
      · exact absurd hms hne
      · rfl
    rw [hemp]
    simp only [Bool.false_eq_true, if_false]
    rw [hfold]

end Policy

namespace Policy

/-- Concrete instantiation of `C4_rule_precedence`: a loaded rule-free
policy allows a plain envelope. -/
theorem C4_rule_precedence_witness :
    Engine.apply_rules_then_redact ⟨[], none, true⟩
      (Json.objOf [("payload_json", Json.str "\x7b\x7d")]) = allowEmptyDecision :=
  (C4_rule_precedence ⟨[], none, true⟩
    (Json.objOf [("payload_json", Json.str "\x7b\x7d")]) (by decide) rfl (by decide)).1 rfl

end Policy

namespace BlobStore

/-- Decoding inverts the big-endian `u32` encoding below `2 ^ 32`. -/
theorem decodeBe32_be32 (n : Nat) (h : n < 2 ^ 32) :
    decodeBe32 (n / 2 ^ 24 % 256) (n / 2 ^ 16 % 256) (n / 2 ^ 8 % 256) (n % 256) = n := by
  unfold decodeBe32
  omega

/-- The chunk splitter with enough fuel flattens back to the input. -/
theorem chunksOfF_flatten :
    ∀ (fuel : Nat) (l : List Nat), l.length ≤ fuel → (chunksOfF fuel l).flatten = l := by
  intro fuel
  induction fuel with
  | zero =>
    intro l hl
    have : l = [] := List.eq_nil_of_length_eq_zero (Nat.le_zero.mp hl)
    rw [this]
    rfl
  | succ f ih =>
    intro l hl
    cases l with
    | nil => rfl
    | cons a t =>
      show ((a :: t).take CHUNK_SIZE :: chunksOfF f ((a :: t).drop CHUNK_SIZE)).flatten = a :: t
      rw [List.flatten_cons, ih ((a :: t).drop CHUNK_SIZE) ?_, List.take_append_drop]
      have hlen : ((a :: t).drop CHUNK_SIZE).length = (a :: t).length - CHUNK_SIZE :=
        List.length_drop _ _
      rw [hlen]
      have : (a :: t).length ≤ f + 1 := hl
      have hcs : 1 ≤ CHUNK_SIZE := by norm_num [CHUNK_SIZE]
      omega

/-- Every chunk produced with enough fuel is at most `CHUNK_SIZE` long. -/
theorem chunksOfF_bounded :
    ∀ (fuel : Nat) (l : List Nat), l.length ≤ fuel →
      ∀ c ∈ chunksOfF fuel l, c.length ≤ CHUNK_SIZE := by
  intro fuel
  induction fuel with
  | zero =>
    intro l hl c hc
    have : l = [] := List.eq_nil_of_length_eq_zero (Nat.le_zero.mp hl)
    rw [this] at hc
    cases hc
  | succ f ih =>
    intro l hl c hc
    cases l with
    | nil => cases hc
    | cons a t =>
      have hstep : chunksOfF (f + 1) (a :: t) =
          (a :: t).take CHUNK_SIZE :: chunksOfF f ((a :: t).drop CHUNK_SIZE) := rfl
      rw [hstep] at hc
      rcases List.mem_cons.mp hc with h | h
      · rw [h, List.length_take]
        exact min_le_left _ _
      · refine ih ((a :: t).drop CHUNK_SIZE) ?_ c h
        rw [List.length_drop]
        have : (a :: t).length ≤ f + 1 := hl
        have hcs : 1 ≤ CHUNK_SIZE := by norm_num [CHUNK_SIZE]
        omega

/-- Each encoded frame contributes at least one byte per chunk. -/
theorem encodeChunks_length_ge (p : Prims) (key pfx : List Nat) :
    ∀ (chunks : List (List Nat)) (counter : Nat),
      chunks.length ≤ (encodeChunks p key pfx counter chunks).length := by
  intro chunks
  induction chunks with
  | nil => intro counter; exact Nat.le_refl 0
  | cons c cs ih =>
    intro counter
    show cs.length + 1 ≤ (be32 _ ++ _ ++ encodeChunks p key pfx (counter + 1) cs).length
    rw [List.length_append, List.length_append]
    have h4 : (be32 (p.encrypt key (chunkNonce pfx counter) c).length).length = 4 := rfl
    have := ih (counter + 1)
    omega

/-- Reading back the encoded frames recovers the chunks: each 4-byte
length decodes to the ciphertext length, the body is long enough, and
decryption with the matching counter nonce inverts encryption. -/
theorem collect_encode (p : Prims) (key pfx : List Nat)
    (haead : AeadRoundTrip p) (htag : AeadTagLen p) :
    ∀ (chunks : List (List Nat)) (counter fuel : Nat),
      (∀ c ∈ chunks, c.length ≤ CHUNK_SIZE) →
      chunks.length + 1 ≤ fuel →
      collectChunksF p key pfx fuel counter (encodeChunks p key pfx counter chunks) =
        some chunks := by
  intro chunks
  induction chunks with
  | nil =>
    intro counter fuel _ hfuel
    cases fuel with
    | zero => omega
    | succ f => rfl
  | cons c cs ih =>
    intro counter fuel hsz hfuel
    cases fuel with
    | zero => omega
    | succ f =>
      have hctlen : (p.encrypt key (chunkNonce pfx counter) c).length =
          c.length + AEAD_TAG_SIZE := htag key (chunkNonce pfx counter) c
      have hclt : (p.encrypt key (chunkNonce pfx counter) c).length < 2 ^ 32 := by
        have := hsz c (List.mem_cons_self c cs)
        rw [hctlen]
        norm_num [CHUNK_SIZE, AEAD_TAG_SIZE] at *
        omega
      have hshape : encodeChunks p key pfx counter (c :: cs) =
          (p.encrypt key (chunkNonce pfx counter) c).length / 2 ^ 24 % 256 ::
          (p.encrypt key (chunkNonce pfx counter) c).length / 2 ^ 16 % 256 ::
          (p.encrypt key (chunkNonce pfx counter) c).length / 2 ^ 8 % 256 ::
          (p.encrypt key (chunkNonce pfx counter) c).length % 256 ::
          (p.encrypt key (chunkNonce pfx counter) c ++
            encodeChunks p key pfx (counter + 1) cs) := by
        show be32 _ ++ _ ++ _ = _
        rw [be32]
        simp [List.append_assoc]
      rw [hshape]
      show (match (p.encrypt key (chunkNonce pfx counter) c).length / 2 ^ 24 % 256 ::
          (p.encrypt key (chunkNonce pfx counter) c).length / 2 ^ 16 % 256 ::
          (p.encrypt key (chunkNonce pfx counter) c).length / 2 ^ 8 % 256 ::
          (p.encrypt key (chunkNonce pfx counter) c).length % 256 ::
          (p.encrypt key (chunkNonce pfx counter) c ++
            encodeChunks p key pfx (counter + 1) cs) with
        | b0 :: b1 :: b2 :: b3 :: body =>
          let clen := decodeBe32 b0 b1 b2 b3
          if body.length < clen then some []
          else
            match p.decrypt key (chunkNonce pfx counter) (body.take clen) with
            | none => none
            | some pt =>
              match collectChunksF p key pfx f (counter + 1) (body.drop clen) with
              | some pts => some (pt :: pts)
              | none => none
        | _ => some []) = some (c :: cs)
      simp only
      rw [decodeBe32_be32 _ hclt]
      have hbodylen : ¬ ((p.encrypt key (chunkNonce pfx counter) c ++
          encodeChunks p key pfx (counter + 1) cs).length <
          (p.encrypt key (chunkNonce pfx counter) c).length) := by
        have hlen := List.length_append (p.encrypt key (chunkNonce pfx counter) c)
          (encodeChunks p key pfx (counter + 1) cs)
        omega
      rw [if_neg hbodylen]
      rw [List.take_left, List.drop_left]
      rw [haead key (chunkNonce pfx counter) c]
      rw [ih (counter + 1) f (fun x hx => hsz x (List.mem_cons_of_mem c hx))
        (by rw [List.length_cons] at hfuel; omega)]

end BlobStore

namespace BlobStore

/-- Evaluation of the streaming read path: when the file has the BS2
header and its chunks decrypt and decompress to `out`, the sink receives
`out` and the result is `Ok` exactly when the digest matches (an
`Integrity` error otherwise, with the bytes already written). -/
theorem get_to_writer_bs2 (p : Prims) (key : List Nat) (fs : FS)
    (digest file body : List Nat) (pts : List (List Nat)) (out : List Nat)
    (hfs : fs digest = some file)
    (hfile : file = FILE_MAGIC ++ FILE_VERSION :: be32 CHUNK_SIZE ++ body)
    (hcollect : collectChunks p key (derive_nonce_pfx p key digest) 0 body = some pts)
    (hdec : p.decompress pts.flatten = some out) :
    get_to_writer p key fs digest =
      (if p.sha256 out = digest then (Except.ok out.length, out)
       else (Except.error Error.Integrity, out)) := by
  have hfile' : file = 66 :: 83 :: 50 :: 0 :: 1 :: 0 :: 1 :: 0 :: 0 :: body := by
    rw [hfile]
    rfl
  have hcond : ¬(file.length < 9 ∨ file.take 4 ≠ FILE_MAGIC) := by
    rw [hfile']
    simp [FILE_MAGIC]
  have hver : file.getD 4 0 = FILE_VERSION := by
    rw [hfile']
    rfl
  have hdrop : file.drop 9 = body := by
    rw [hfile']
    rfl
  unfold get_to_writer
  rw [hfs]
  simp only [hcond, if_false]
  rw [hver]
  simp only [ne_eq, not_true_eq_false, if_false, FILE_VERSION]
  rw [hdrop, hcollect]
  simp only
  rw [hdec]
  simp only
  by_cases hdig : p.sha256 out = digest
  · simp [hdig]
  · simp [hdig]

/-- Claim C1: storing any byte sequence and reading it back through the
returned digest yields exactly those bytes (with the byte count), and
their SHA-256 digest is the digest `put` returned; holds for every store
state in which the blob is not yet present, in particular the empty byte
sequence. -/
theorem C1_put_get_roundtrip (p : Prims) (key : List Nat) (fs : FS) (b : List Nat)
    (haead : AeadRoundTrip p) (htag : AeadTagLen p) (hz : ZstdRoundTrip p)
    (hnz : ZstdFrameNonEmpty p) (hfresh : fs (p.sha256 b) = none) :
    (put_reader p key fs b).1 = p.sha256 b ∧
    get_to_writer p key (put_reader p key fs b).2 (put_reader p key fs b).1 =
      (Except.ok b.length, b) ∧
    digest_of p b = (put_reader p key fs b).1 := by
  have hcomp_ne : (p.compress b).isEmpty = false := by
    rcases hc : p.compress b with _ | ⟨x, t⟩
    · exact absurd hc (hnz b)
    · rfl
  have hput : put_reader p key fs b =
      (p.sha256 b, fsInsert fs (p.sha256 b)
        (FILE_MAGIC ++ FILE_VERSION :: be32 CHUNK_SIZE ++
          encodeChunks p key (derive_nonce_pfx p key (p.sha256 b)) 0
            (chunksOf (p.compress b)))) := by
    unfold put_reader
    simp [hfresh, hcomp_ne]
  refine ⟨by rw [hput], ?_, by rw [hput]; rfl⟩
  rw [hput]
  have hbounded : ∀ c ∈ chunksOf (p.compress b), c.length ≤ CHUNK_SIZE :=
    chunksOfF_bounded (p.compress b).length (p.compress b) (le_refl _)
  have hflat : (chunksOf (p.compress b)).flatten = p.compress b :=
    chunksOfF_flatten (p.compress b).length (p.compress b) (le_refl _)
  have hcollect : collectChunks p key (derive_nonce_pfx p key (p.sha256 b)) 0
      (encodeChunks p key (derive_nonce_pfx p key (p.sha256 b)) 0
        (chunksOf (p.compress b))) = some (chunksOf (p.compress b)) := by
    unfold collectChunks
    refine collect_encode p key _ haead htag _ 0 _ hbounded ?_
    have := encodeChunks_length_ge p key (derive_nonce_pfx p key (p.sha256 b))
      (chunksOf (p.compress b)) 0
    omega
  have hdec : p.decompress (chunksOf (p.compress b)).flatten = some b := by
    rw [hflat]
    exact hz b
  have hres := get_to_writer_bs2 p key
    (fsInsert fs (p.sha256 b)
      (FILE_MAGIC ++ FILE_VERSION :: be32 CHUNK_SIZE ++
        encodeChunks p key (derive_nonce_pfx p key (p.sha256 b)) 0
          (chunksOf (p.compress b))))
    (p.sha256 b) _ _ _ b (by unfold fsInsert; simp) rfl hcollect hdec
  rw [hres]
  simp

end BlobStore

namespace BlobStore

/-- `idPrims` satisfies the AEAD round-trip contract. -/
theorem idPrims_aead : AeadRoundTrip idPrims := by
  intro k n pt
  simp only [idPrims]
  have hlen : (pt ++ List.replicate 16 0).length = pt.length + 16 := by simp
  rw [hlen]
  rw [if_neg (by omega)]
  rw [show pt.length + 16 - 16 = pt.length from by omega]
  rw [List.take_left]

/-- `idPrims` satisfies the ciphertext-length contract. -/
theorem idPrims_taglen : AeadTagLen idPrims := by
  intro k n pt
  simp only [idPrims]
  simp [AEAD_TAG_SIZE]

/-- `idPrims` satisfies the zstd round-trip contract. -/
theorem idPrims_zstd : ZstdRoundTrip idPrims := by
  intro b
  rfl

/-- `idPrims` frames are non-empty. -/
theorem idPrims_nonempty : ZstdFrameNonEmpty idPrims := by
  intro b
  simp [idPrims]

/-- Concrete instantiation of `C1_put_get_roundtrip` on the empty byte
sequence in an empty store. -/
theorem C1_put_get_roundtrip_witness :
    get_to_writer idPrims [1] (put_reader idPrims [1] (fun _ => none) []).2
      (put_reader idPrims [1] (fun _ => none) []).1 = (Except.ok 0, []) :=
  (C1_put_get_roundtrip idPrims [1] (fun _ => none) [] idPrims_aead idPrims_taglen
    idPrims_zstd idPrims_nonempty rfl).2.1

end BlobStore

namespace BlobStore

/-- Claim C7: the BS2 read path applies no bound check of a chunk's
declared length against the header's chunk size.  A file whose header
declares `chunk_size = 0` and whose single chunk declares length
`18 > 0 + 16` is read successfully (the header chunk size is read into a
discarded variable), where the claim requires an `Integrity` error. -/
theorem C7_missing_bound_check :
    (18 > 0 + AEAD_TAG_SIZE) ∧
    get_to_writer idPrims [1]
      (fun d => if d = [5] then
        some (FILE_MAGIC ++ FILE_VERSION :: be32 0 ++ be32 18 ++
          ([0, 5] ++ List.replicate 16 0))
       else none) [5] = (Except.ok 1, [5]) := by
  exact ⟨by norm_num [AEAD_TAG_SIZE], by decide⟩

/-- Claim C10: whenever `get_to_writer` returns `Ok n`, the sink holds
exactly `n` bytes whose SHA-256 digest is the requested digest; and the
write is not atomic — when the chunks decrypt and decompress but the
final digest comparison fails, the bytes are already in the sink and the
result is `Integrity` with no rollback. -/
theorem C10_sink_semantics (p : Prims) (key : List Nat) (fs : FS) (digest : List Nat) :
    (∀ res sink n, get_to_writer p key fs digest = (res, sink) → res = Except.ok n →
      sink.length = n ∧ p.sha256 sink = digest) ∧
    (∀ file body pts out,
      fs digest = some file →
      file = FILE_MAGIC ++ FILE_VERSION :: be32 CHUNK_SIZE ++ body →
      collectChunks p key (derive_nonce_pfx p key digest) 0 body = some pts →
      p.decompress pts.flatten = some out →
      p.sha256 out ≠ digest →
      get_to_writer p key fs digest = (Except.error Error.Integrity, out)) := by
  constructor
  · intro res sink n hres hok
    unfold get_to_writer at hres
    cases hfs : fs digest with
    | none =>
      rw [hfs] at hres
      injection hres with h1 h2
      rw [← h1] at hok
      simp at hok
    | some file =>
      rw [hfs] at hres
      dsimp only [] at hres
      by_cases hleg : file.length < 9 ∨ file.take 4 ≠ FILE_MAGIC
      · rw [if_pos hleg] at hres
        cases hd1 : p.decrypt key (derive_nonce_pfx p key digest) file with
        | none =>
          rw [hd1] at hres
          injection hres with h1 h2
          rw [← h1] at hok
          simp at hok
        | some compressed =>
          rw [hd1] at hres
          dsimp only [] at hres
          cases hd2 : p.decompress compressed with
          | none =>
            rw [hd2] at hres
            injection hres with h1 h2
            rw [← h1] at hok
            simp at hok
          | some out =>
            rw [hd2] at hres
            dsimp only [] at hres
            by_cases hsha : p.sha256 out ≠ digest
            · rw [if_pos hsha] at hres
              injection hres with h1 h2
              rw [← h1] at hok
              simp at hok
            · rw [if_neg hsha] at hres
              injection hres with h1 h2
              push_neg at hsha
              rw [← h1] at hok
              rw [← h2]
              have hn : out.length = n := by
                injection hok
              exact ⟨hn, hsha⟩
      · rw [if_neg hleg] at hres
        by_cases hver : file.getD 4 0 ≠ FILE_VERSION
        · rw [if_pos hver] at hres
          injection hres with h1 h2
          rw [← h1] at hok
          simp at hok
        · rw [if_neg hver] at hres
          cases hc : collectChunks p key (derive_nonce_pfx p key digest) 0 (file.drop 9) with
          | none =>
            rw [hc] at hres
            injection hres with h1 h2
            rw [← h1] at hok
            simp at hok
          | some pts =>
            rw [hc] at hres
            dsimp only [] at hres
            cases hdec : p.decompress pts.flatten with
            | none =>
              rw [hdec] at hres
              injection hres with h1 h2
              rw [← h1] at hok
              simp at hok
            | some out =>
              rw [hdec] at hres
              dsimp only [] at hres
              by_cases hsha : p.sha256 out ≠ digest
              · rw [if_pos hsha] at hres
                injection hres with h1 h2
                rw [← h1] at hok
                simp at hok
              · rw [if_neg hsha] at hres
                injection hres with h1 h2
                push_neg at hsha
                rw [← h1] at hok
                rw [← h2]
                have hn : out.length = n := by
                  injection hok
                exact ⟨hn, hsha⟩
  · intro file body pts out hfs hfile hcollect hdec hsha
    rw [get_to_writer_bs2 p key fs digest file body pts out hfs hfile hcollect hdec]
    rw [if_neg hsha]

end BlobStore

namespace BlobStore

/-- Concrete instantiation of `C10_sink_semantics`: the sink keeps the
decrypted, decompressed bytes although the digest comparison fails. -/
theorem C10_sink_semantics_witness :
    get_to_writer idPrims [1]
      (fun d => if d = [9] then
        some (FILE_MAGIC ++ FILE_VERSION :: be32 CHUNK_SIZE ++
          (be32 18 ++ ([0, 5] ++ List.replicate 16 0)))
       else none) [9] = (Except.error Error.Integrity, [5]) :=
  (C10_sink_semantics idPrims [1] _ [9]).2
    (FILE_MAGIC ++ FILE_VERSION :: be32 CHUNK_SIZE ++
      (be32 18 ++ ([0, 5] ++ List.replicate 16 0)))
    (be32 18 ++ ([0, 5] ++ List.replicate 16 0))
    [[0, 5]] [5] (by decide) rfl (by decide) rfl (by decide)

end BlobStore

namespace Orchestrator

/-- Claim C2: for every envelope whose TTL has expired
(`timeout_ms > 0` and `now - ts_ms > timeout_ms`), an authenticated
`SubmitTask` returns `DeadlineExceeded` with the service state — in
particular the WAL — completely unchanged. -/
theorem C2_ttl_rejection (st : OrchState) (now : Nat)
    (expected_token auth_header : Option String) (run_id : String) (env : PEnvelope)
    (hauth : check_auth expected_token auth_header = Except.ok ())
    (httl : env.timeout_ms > 0)
    (hexp : now - env.ts_ms > env.timeout_ms) :
    submit_task st now expected_token auth_header run_id (some env) =
      (Except.error GStatus.DeadlineExceeded, st) ∧
    (submit_task st now expected_token auth_header run_id (some env)).2.wal = st.wal := by
  have hrej : reject_if_expired_or_version now env = Except.error GStatus.DeadlineExceeded := by
    unfold reject_if_expired_or_version
    rw [if_pos ⟨httl, hexp⟩]
  have hmain : submit_task st now expected_token auth_header run_id (some env) =
      (Except.error GStatus.DeadlineExceeded, st) := by
    unfold submit_task
    rw [hauth]
    dsimp only []
    rw [hrej]
  exact ⟨hmain, by rw [hmain]⟩

/-- Concrete instantiation of `C2_ttl_rejection`. -/
theorem C2_ttl_rejection_witness :
    submit_task initState 10000 none none "r"
      (some { env0 with timeout_ms := 1, ts_ms := 0 }) =
    (Except.error GStatus.DeadlineExceeded, initState) :=
  (C2_ttl_rejection initState 10000 none none "r" { env0 with timeout_ms := 1, ts_ms := 0 }
    rfl (by decide) (by decide)).1

end Orchestrator

namespace Orchestrator

/-- Looking up the inserted key finds the new value. -/
theorem lookup_assocPut_self {β : Type} (k : String) (v : β) :
    ∀ l : List (String × β), List.lookup k (assocPut k v l) = some v := by
  intro l
  induction l with
  | nil => simp [assocPut, List.lookup]
  | cons kv t ih =>
    unfold assocPut
    by_cases h : kv.1 == k
    · simp only [h, if_true]
      simp [List.lookup, beq_iff_eq]
    · simp only [h, Bool.false_eq_true, if_false]
      rw [show ((kv.1, kv.2) : String × β) = kv from rfl]
      cases hkk : (k == kv.1) with
      | true =>
        exfalso
        rw [beq_iff_eq] at hkk
        rw [hkk] at h
        simp at h
      | false =>
        simp [List.lookup, hkk]
        exact ih

/-- Looking up a different key is unchanged by the insert. -/
theorem lookup_assocPut_ne {β : Type} (k k' : String) (v : β) (h : k' ≠ k) :
    ∀ l : List (String × β), List.lookup k' (assocPut k v l) = List.lookup k' l := by
  intro l
  induction l with
  | nil =>
    have hb : (k' == k) = false := by simp [h]
    simp [assocPut, List.lookup, hb]
  | cons kv t ih =>
    unfold assocPut
    by_cases hk : kv.1 == k
    · simp only [hk, if_true]
      rw [beq_iff_eq] at hk
      have h1 : (k' == k) = false := by
        simp [h]
      have h2 : (k' == kv.1) = false := by
        rw [hk]
        exact h1
      simp [List.lookup, h1, h2]
    · simp only [hk, Bool.false_eq_true, if_false]
      cases hkk : (k' == kv.1) with
      | true => simp [List.lookup, hkk]
      | false => simp [List.lookup, hkk, ih]

/-- Membership after a set-like insert. -/
theorem mem_insertSeen (i x : String) (l : List String) :
    i ∈ insertSeen x l ↔ i = x ∨ i ∈ l := by
  unfold insertSeen
  by_cases h : x ∈ l
  · simp only [h, if_true]
    constructor
    · intro hi
      exact Or.inr hi
    · intro hi
      rcases hi with hi | hi
      · rw [hi]; exact h
      · exact hi
  · simp only [h, if_false]
    simp [List.mem_cons]

/-- `replayStep` never writes `usage_by_run`. -/
theorem replayStep_usage (ix : RunIndex) (rec : WalRec) :
    (replayStep ix rec).usage_by_run = ix.usage_by_run := by
  unfold replayStep
  rcases h1 : recRunOf rec with _ | run <;>
    rcases h2 : recEnvIdOf rec with _ | envid <;>
    by_cases h3 : (rec.payload.get "event").bind Json.asStr = some "start_run" <;>
    simp [h1, h2, h3]

/-- Effect of one replayed record on the last-event-id map. -/
theorem replayStep_last (ix : RunIndex) (rec : WalRec) (run : String) :
    List.lookup run (replayStep ix rec).last_event_id_by_run =
      (if recRunOf rec = some run then some rec.id
       else List.lookup run ix.last_event_id_by_run) := by
  unfold replayStep
  rcases h1 : recRunOf rec with _ | r0
  · rcases h2 : recEnvIdOf rec with _ | envid <;> simp [h2]
  · have hlast : ∀ m : List (String × Nat),
        List.lookup run (assocPut r0 rec.id m) =
          if r0 = run then some rec.id else List.lookup run m := by
      intro m
      by_cases hr : r0 = run
      · rw [if_pos hr, hr, lookup_assocPut_self]
      · rw [if_neg hr, lookup_assocPut_ne r0 run rec.id (fun he => hr he.symm)]
    by_cases h3 : (rec.payload.get "event").bind Json.asStr = some "start_run" <;>
      rcases h2 : recEnvIdOf rec with _ | envid <;>
      simp only [h2, h3, if_true, if_false] <;>
      simp [hlast]

/-- Effect of one replayed record on the run-start-timestamp map. -/
theorem replayStep_start (ix : RunIndex) (rec : WalRec) (run : String) :
    List.lookup run (replayStep ix rec).run_start_ts_by_run =
      (if recRunOf rec = some run ∧
          (rec.payload.get "event").bind Json.asStr = some "start_run" then some rec.ts_ms
       else List.lookup run ix.run_start_ts_by_run) := by
  unfold replayStep
  rcases h1 : recRunOf rec with _ | r0
  · rcases h2 : recEnvIdOf rec with _ | envid <;> simp [h2]
  · have hst : ∀ m : List (String × Nat),
        List.lookup run (assocPut r0 rec.ts_ms m) =
          if r0 = run then some rec.ts_ms else List.lookup run m := by
      intro m
      by_cases hr : r0 = run
      · rw [if_pos hr, hr, lookup_assocPut_self]
      · rw [if_neg hr, lookup_assocPut_ne r0 run rec.ts_ms (fun he => hr he.symm)]
    by_cases h3 : (rec.payload.get "event").bind Json.asStr = some "start_run" <;>
      rcases h2 : recEnvIdOf rec with _ | envid <;>
      simp only [h2, h3, if_true, if_false] <;>
      simp [hst, h3]

/-- Effect of one replayed record on the seen-envelope set. -/
theorem replayStep_seen (ix : RunIndex) (rec : WalRec) (i : String) :
    i ∈ (replayStep ix rec).seen_ids ↔
      recEnvIdOf rec = some i ∨ i ∈ ix.seen_ids := by
  unfold replayStep
  rcases h1 : recRunOf rec with _ | r0 <;>
    rcases h2 : recEnvIdOf rec with _ | envid <;>
    by_cases h3 : (rec.payload.get "event").bind Json.asStr = some "start_run" <;>
    simp [h1, h2, h3, mem_insertSeen, eq_comm]

end Orchestrator

namespace Orchestrator

/-- Appending one record updates the spec-side last-id of exactly its run. -/
theorem lastIdSpec_append_one (l : List WalRec) (r : WalRec) (run : String) :
    lastIdSpec (l ++ [r]) run =
      (if recRunOf r = some run then some r.id else lastIdSpec l run) := by
  unfold lastIdSpec
  rw [List.filter_append]
  by_cases h : recRunOf r = some run
  · have hb : (recRunOf r == some run) = true := by simp [h]
    rw [if_pos h]
    simp only [List.filter_cons, hb, if_true, List.filter_nil, List.map_append, List.map_cons,
      List.map_nil]
    exact List.getLast?_concat _
  · have hb : (recRunOf r == some run) = false := by simp [h]
    rw [if_neg h]
    simp [hb]

/-- Appending one record updates the spec-side start timestamp of its run
exactly when it is a `start_run` event. -/
theorem startTsSpec_append_one (l : List WalRec) (r : WalRec) (run : String) :
    startTsSpec (l ++ [r]) run =
      (if recRunOf r = some run ∧
          (r.payload.get "event").bind Json.asStr = some "start_run" then some r.ts_ms
       else startTsSpec l run) := by
  unfold startTsSpec
  rw [List.filter_append]
  by_cases h : recRunOf r = some run ∧
      (r.payload.get "event").bind Json.asStr = some "start_run"
  · have hb : (recRunOf r == some run &&
        ((r.payload.get "event").bind Json.asStr == some "start_run")) = true := by
      simp [h.1, h.2]
    rw [if_pos h]
    simp only [List.filter_cons, hb, if_true, List.filter_nil, List.map_append, List.map_cons,
      List.map_nil]
    exact List.getLast?_concat _
  · have hb : (recRunOf r == some run &&
        ((r.payload.get "event").bind Json.asStr == some "start_run")) = false := by
      rcases not_and_or.mp h with h1 | h1 <;> simp [h1]
    rw [if_neg h]
    simp [hb]

/-- Membership in the spec-side envelope ids after appending one record. -/
theorem envIdsOf_append_one (l : List WalRec) (r : WalRec) (i : String) :
    i ∈ envIdsOf (l ++ [r]) ↔ recEnvIdOf r = some i ∨ i ∈ envIdsOf l := by
  unfold envIdsOf
  rw [List.filterMap_append]
  simp [List.mem_append, List.mem_filterMap]
  constructor
  · intro h
    rcases h with h | h
    · exact Or.inr h
    · exact Or.inl h
  · intro h
    rcases h with h | h
    · exact Or.inr h
    · exact Or.inl h

/-- `replay_on_start` over an extended log is one more `replayStep`. -/
theorem replay_on_start_append_one (l : List WalRec) (r : WalRec) :
    replay_on_start (l ++ [r]) = replayStep (replay_on_start l) r := by
  unfold replay_on_start
  rw [List.foldl_append]
  rfl

end Orchestrator

namespace Orchestrator

/-- **C3** (counterexample to the original claim): a successfully submitted
`agent_task` leaves cumulative usage `(1, 0)` recorded for its run in
`usage_by_run`, yet replaying the WAL that very call produced rebuilds an
empty `usage_by_run`: replay does not restore the usage totals. -/
theorem C3_counterexample :
    (submit_task initState 10 none none "r" (some env0)).1 = Except.ok true ∧
    (submit_task initState 10 none none "r" (some env0)).2.usage_by_run =
      [("r", (1, 0))] ∧
    (replay_on_start
        (submit_task initState 10 none none "r" (some env0)).2.wal).usage_by_run = [] := by
  exact ⟨by decide, by decide, by decide⟩

/-- **C3** (amended): for every WAL content, `replay_on_start` rebuilds only
three of the four derived structures — the last event id per run, the
`start_run` timestamp per run, and the set of seen envelope ids — while the
cumulative `usage_by_run` is always left empty, not rebuilt from the log. -/
theorem C3_replay_rebuilds (wal : List WalRec) :
    (replay_on_start wal).usage_by_run = [] ∧
    (∀ run, List.lookup run (replay_on_start wal).last_event_id_by_run =
      lastIdSpec wal run) ∧
    (∀ run, List.lookup run (replay_on_start wal).run_start_ts_by_run =
      startTsSpec wal run) ∧
    (∀ i, i ∈ (replay_on_start wal).seen_ids ↔ i ∈ envIdsOf wal) := by
  induction wal using List.reverseRecOn with
  | nil =>
    refine ⟨rfl, ?_, ?_, ?_⟩
    · intro run
      rfl
    · intro run
      rfl
    · intro i
      simp [replay_on_start, envIdsOf]
  | append_singleton l r ih =>
    rw [replay_on_start_append_one]
    refine ⟨?_, ?_, ?_, ?_⟩
    · rw [replayStep_usage]
      exact ih.1
    · intro run
      rw [replayStep_last, lastIdSpec_append_one, ih.2.1 run]
    · intro run
      rw [replayStep_start, startTsSpec_append_one, ih.2.2.1 run]
    · intro i
      rw [replayStep_seen, envIdsOf_append_one]
      exact or_congr Iff.rfl (ih.2.2.2 i)

end Orchestrator


namespace Budget

/-- For `1 ≤ n`, `2 ^ log2F fuel n` never overshoots `n`. -/
theorem log2F_le (fuel : Nat) : ∀ n : Nat, 1 ≤ n → 2 ^ log2F fuel n ≤ n := by
  induction fuel with
  | zero =>
    intro n h
    simpa [log2F] using h
  | succ f ih =>
    intro n h
    unfold log2F
    by_cases h2 : n ≥ 2
    · simp only [h2, if_true]
      have hh : 1 ≤ n / 2 := by omega
      have := ih (n / 2) hh
      calc 2 ^ (log2F f (n / 2) + 1) = 2 ^ log2F f (n / 2) * 2 := by ring
        _ ≤ n / 2 * 2 := by omega
        _ ≤ n := Nat.div_mul_le_self n 2
    · simp only [h2, if_false]
      simpa using h

/-- A positive `u64` casts to a positive double. -/
theorem castU64_pos (n : Nat) (h : 0 < n) : 0 < castU64 n := by
  unfold castU64
  split
  · exact h
  · have hp : 0 < 2 ^ (log2F 64 n - 52) := by positivity
    have hlog : 2 ^ log2F 64 n ≤ n := log2F_le 64 n (by omega)
    have hd : 2 ^ (log2F 64 n - 52) ≤ n :=
      le_trans (Nat.pow_le_pow_right (by omega) (by omega)) hlog
    have hq : 1 ≤ n / 2 ^ (log2F 64 n - 52) := (Nat.one_le_div_iff hp).mpr hd
    simp only []
    split
    · exact Nat.mul_pos (by omega) hp
    · exact Nat.mul_pos hq hp

/-- Dividing a positive double by itself yields exactly `1.0`. -/
theorem f64div_self (x : Nat) (hx : 0 < x) : f64div x x = F64_ONE := by
  have hx0 : ¬(x = 0 ∨ x = 0) := by omega
  have hN : x * 2 ^ 128 / (x * 2 ^ 52) = 2 ^ 76 := by
    rw [show x * 2 ^ 128 = x * 2 ^ 52 * 2 ^ 76 by ring]
    exact Nat.mul_div_cancel_left _ (by positivity)
  have hF : log2F 200 (2 ^ 76 : Nat) = 76 := by decide
  have hq : x * 2 ^ 128 / (x * 2 ^ 76) = 2 ^ 52 := by
    rw [show x * 2 ^ 128 = x * 2 ^ 76 * 2 ^ 52 by ring]
    exact Nat.mul_div_cancel_left _ (by positivity)
  have hr : x * 2 ^ 128 % (x * 2 ^ 76) = 0 := by
    rw [show x * 2 ^ 128 = x * 2 ^ 76 * 2 ^ 52 by ring]
    exact Nat.mul_mod_right _ _
  have hden : 0 < x * 2 ^ 76 := by positivity
  simp only [f64div, hx0, if_false, hN, hF, hq, hr]
  have hc : ¬(2 * 0 > x * 2 ^ 76 ∨ (2 * 0 = x * 2 ^ 76 ∧ (2 ^ 52 : Nat) % 2 = 1)) := by
    push_neg
    constructor
    · omega
    · intro h
      omega
  rw [if_neg hc]
  rw [if_neg (by decide : ¬((2 ^ 52 : Nat) = 2 ^ 53))]
  show (2 ^ 52 : Nat) * 2 ^ 76 = F64_ONE
  decide

/-- A zero counter contributes ratio `0` for every limit configuration. -/
theorem ratioF64_zero (mx : Option Nat) : ratioF64 0 mx = 0 := by
  cases mx with
  | none => rfl
  | some m =>
    by_cases h : m > 0
    · simp only [ratioF64, h, if_true]
      have h0 : castU64 0 = 0 := rfl
      rw [h0]
      simp [f64div]
    · simp [ratioF64, h]

/-- **C5** (amended): a snapshot exactly at the token limit has `f64`
ratio exactly `1.0` — the division rounds nothing away — so with the cost
side absent, zero-limited, zero, or itself exactly at its limit,
`Manager::status` returns `Warning90`, never `Exceeded`, for every
configuration and counter value. -/
theorem C5_at_limit_warning90 (m : Manager) (mt : Nat)
    (htl : m.cfg.max_tokens = some mt) (hmt : 0 < mt)
    (ht : m.counters.tokens = mt)
    (hc : m.cfg.max_cost_micros = none ∨ m.cfg.max_cost_micros = some 0 ∨
          m.counters.cost_micros = 0 ∨
          m.cfg.max_cost_micros = some m.counters.cost_micros) :
    m.statusF64 = BudgetState.Warning90 := by
  have htr : ratioF64 m.counters.tokens m.cfg.max_tokens = F64_ONE := by
    rw [htl, ht]
    simp only [ratioF64, hmt, if_true]
    exact f64div_self (castU64 mt) (castU64_pos mt hmt)
  have hcr : ratioF64 m.counters.cost_micros m.cfg.max_cost_micros ≤ F64_ONE := by
    rcases hc with hc | hc | hc | hc
    · rw [hc]
      exact Nat.zero_le _
    · rw [hc]
      simp [ratioF64]
    · rw [hc, ratioF64_zero]
      exact Nat.zero_le _
    · rw [hc]
      by_cases hpos : m.counters.cost_micros > 0
      · simp only [ratioF64, hpos, if_true]
        rw [f64div_self (castU64 m.counters.cost_micros) (castU64_pos _ hpos)]
      · simp only [ratioF64, hpos, if_false]
        exact Nat.zero_le _
  have hmax : max F64_ONE
      (ratioF64 m.counters.cost_micros m.cfg.max_cost_micros) = F64_ONE :=
    Nat.max_eq_left hcr
  unfold Manager.statusF64
  simp only [htr]
  rw [hmax]
  rw [if_neg (lt_irrefl F64_ONE)]
  rw [if_pos (by decide : F64_ONE ≥ F64_C90)]

/-- Witness: a manager with both counters exactly at their limits is
classified `Warning90`. -/
theorem C5_at_limit_warning90_witness :
    Manager.statusF64 ⟨⟨some 5, some 7⟩, ⟨5, 7⟩⟩ = BudgetState.Warning90 :=
  C5_at_limit_warning90 ⟨⟨some 5, some 7⟩, ⟨5, 7⟩⟩ 5 rfl (by decide) rfl
    (Or.inr (Or.inr (Or.inr rfl)))

/-- **C5** (counterexample to the original claim): with `max_tokens = 2 ^ 53`
and `tokens = 2 ^ 53 + 1` the real ratio exceeds `1`, so the claim's pure
real-ratio classification (`Manager.status`) is `Exceeded`; but the `as f64`
cast rounds `2 ^ 53 + 1` down to `2 ^ 53`, the division then yields exactly
`1.0`, and the source's `f64` computation (`Manager.statusF64`) returns
`Warning90`. -/
theorem C5_counterexample :
    Manager.statusF64 ⟨⟨some (2 ^ 53), none⟩, ⟨2 ^ 53 + 1, 0⟩⟩ = BudgetState.Warning90 ∧
    Manager.status ⟨⟨some (2 ^ 53), none⟩, ⟨2 ^ 53 + 1, 0⟩⟩ = BudgetState.Exceeded ∧
    castU64 (2 ^ 53 + 1) = castU64 (2 ^ 53) := by
  exact ⟨by decide, by decide, by decide⟩
end Budget
